import Mathlib

/-!
Verification development for the layout post-processing core of the
pdfix action-autotag-textract repository.

The development shallowly embeds two source modules:

* `src/process_bboxes.py` — the region-overlap resolver
  (`TextractPostProcessingBBoxes`): overlap graph construction, grouping,
  winner-take-all reduction, skip-id list.
* `src/template_json.py` — the template element builder
  (`TemplateJsonCreator._create_json_for_elements` and its helpers).

Numbers: the Python floats carried by Textract entities (confidences,
normalized bbox coordinates) are modelled as rationals `ℚ`; `int()`
truncation is modelled explicitly.  Rational addition, subtraction and
multiplication are spelled with the kernel-reducible wrappers
`qadd`/`qsub`/`qmul` (proved equal to `+`/`-`/`*` below) so that concrete
runs of the embedded code evaluate inside `decide`.

Python `set`s are modelled as `Finset ℕ`; where the source iterates a set
(CPython iteration order is unspecified), the model iterates it in
ascending order via `ascending_members`, except where a theorem explicitly
quantifies over the iteration order (`build_groups` takes the order as an
argument).
-/

/-- Rational addition, written so that it reduces in the kernel. -/
def qadd (a b : ℚ) : ℚ := mkRat (a.num * b.den + b.num * a.den) (a.den * b.den)

/-- Rational subtraction, written so that it reduces in the kernel. -/
def qsub (a b : ℚ) : ℚ := mkRat (a.num * b.den - b.num * a.den) (a.den * b.den)

/-- Rational multiplication, written so that it reduces in the kernel. -/
def qmul (a b : ℚ) : ℚ := mkRat (a.num * b.num) (a.den * b.den)

/-- Embeds Python `int()` applied to a float: truncation toward zero. -/
def py_int (q : ℚ) : ℤ := q.num.tdiv q.den

/-- Ascending enumeration of a set of indices bounded by `n`; this is the
model of CPython set iteration used by the deterministic pipeline. -/
def ascending_members (n : ℕ) (s : Finset ℕ) : List ℕ :=
  (List.range n).filter (· ∈ s)

/-- Normalized bounding box of a Textract entity: `bbox.x`, `bbox.y`,
`bbox.width`, `bbox.height` (origin top-left, y-down). -/
structure BBox where
  x : ℚ
  y : ℚ
  width : ℚ
  height : ℚ
deriving DecidableEq

/-- Embeds `textractor.entities.table_cell.TableCell`: the fields read by
`template_json.py` (`row_index`, `col_index`, `row_span`, `col_span`,
`bbox`, `is_column_header`, `confidence`).  AWS delivers `row_index` and
`col_index` 1-based. -/
structure TableCell where
  row_index : ℕ
  col_index : ℕ
  row_span : ℕ
  col_span : ℕ
  bbox : BBox
  is_column_header : Bool
  confidence : ℚ
deriving DecidableEq

/-- Embeds `textractor.entities.table.Table`: the fields read by
`template_json.py` (`row_count`, `column_count`, `children`).  The children
of a `Table` are its cells. -/
structure Table where
  row_count : ℕ
  column_count : ℕ
  children : List TableCell
deriving DecidableEq

/-- A child of a `Layout` as dispatched on by `isinstance` checks in
`template_json.py`: a nested `Layout` child (modelled by the only fields
the builder reads from it: bbox and confidence), a `Table` child, or any
other entity (skipped by both `isinstance` filters). -/
inductive Child where
  | layout (bbox : BBox) (confidence : ℚ)
  | table (t : Table)
  | other
deriving DecidableEq

/-- Embeds `textractor.entities.layout.Layout`: the fields read by
`process_bboxes.py` and `template_json.py`. `layout_type` is the string
constant from `textractor.data.constants` (e.g. `"LAYOUT_TEXT"`). -/
structure Layout where
  id : String
  layout_type : String
  confidence : ℚ
  bbox : BBox
  children : List Child
deriving DecidableEq

instance : Inhabited Layout :=
  ⟨{ id := "", layout_type := "", confidence := 0,
     bbox := ⟨0, 0, 0, 0⟩, children := [] }⟩

/-- Embeds `textractor.entities.document.Document`: the post-processor and
the template builder read only `result.layouts`. -/
structure Document where
  layouts : List Layout

/-- Embeds `process_bboxes.convert_bbox`: a region's bbox as
`(x_min, y_min, x_max, y_max)`. -/
def convert_bbox (region : Layout) : ℚ × ℚ × ℚ × ℚ :=
  (region.bbox.x, region.bbox.y,
   qadd region.bbox.x region.bbox.width, qadd region.bbox.y region.bbox.height)

/-- Embeds `process_bboxes.bboxes_overlaps`: two regions overlap unless one
is strictly left of / right of / above / below the other (closed-rectangle
test; rectangles touching on an edge count as overlapping). -/
def bboxes_overlaps (region1 region2 : Layout) : Bool :=
  let c1 := convert_bbox region1
  let c2 := convert_bbox region2
  !(decide (c1.2.2.1 < c2.1) || decide (c1.1 > c2.2.2.1)
    || decide (c1.2.2.2 < c2.2.1) || decide (c1.2.1 > c2.2.2.2))

/-- Embeds `TextractPostProcessingBBoxes._find_overlaps`: all pairs
`(index1, index2)` with `index1 < index2` whose bboxes overlap, in
lexicographic order. -/
def find_overlaps (layouts : List Layout) : List (ℕ × ℕ) :=
  (List.range layouts.length).flatMap fun index1 =>
    ((List.range layouts.length).filter fun index2 => index1 < index2).filterMap
      fun index2 =>
        if bboxes_overlaps (layouts.getD index1 default) (layouts.getD index2 default)
        then some (index1, index2) else none

/-- Embeds `TextractPostProcessingBBoxes._convert_overlaps_to_set`:
the set of all endpoints of the overlap pairs. -/
def convert_overlaps_to_set (overlaps : List (ℕ × ℕ)) : Finset ℕ :=
  overlaps.foldl (fun s p => insert p.2 (insert p.1 s)) ∅

/-- Embeds the inner loop of `_group_overlaps` that fills the direct
neighbours of `box_index` into `group`. -/
def fill_touching (box_index : ℕ) (overlaps : List (ℕ × ℕ)) (group : Finset ℕ) :
    Finset ℕ :=
  overlaps.foldl
    (fun g p =>
      let g' := if box_index = p.1 then insert p.2 g else g
      if box_index = p.2 then insert p.1 g' else g') group

/-- Embeds one iteration of the group-building loop of `_group_overlaps`:
find the first group containing `box_index` (`_get_group_index`) and fill
its direct neighbours into it, or append a fresh group of its neighbours. -/
def group_step (overlaps : List (ℕ × ℕ)) (groups : List (Finset ℕ))
    (box_index : ℕ) : List (Finset ℕ) :=
  match groups with
  | [] => [fill_touching box_index overlaps ∅]
  | g :: gs =>
    if box_index ∈ g then fill_touching box_index overlaps g :: gs
    else g :: group_step overlaps gs box_index

/-- Embeds the first pass of `_group_overlaps`, iterating the overlapping
set in the given order (CPython set iteration order is unspecified, so the
order is an explicit argument). -/
def build_groups (overlaps : List (ℕ × ℕ)) (order : List ℕ) : List (Finset ℕ) :=
  order.foldl (group_step overlaps) []

/-- Embeds the inner loop of the merge pass of `_group_overlaps` for a
fixed `group1`: scan the remaining groups left to right, absorbing each
group that intersects the (growing) `group1`; returns the grown group
and the groups that were not absorbed, in order. -/
def absorb (group1 : Finset ℕ) : List (Finset ℕ) → Finset ℕ × List (Finset ℕ)
  | [] => (group1, [])
  | g2 :: gs =>
    if (group1 ∩ g2).Nonempty then absorb (group1 ∪ g2) gs
    else
      let p := absorb group1 gs
      (p.1, g2 :: p.2)

/-- Fuelled form of the merge pass of `_group_overlaps` (the outer loop
over `group_index1`, skipping already-absorbed groups).  The fuel is only
a structural-recursion device; `length` fuel always suffices. -/
def merge_groups_fuel : ℕ → List (Finset ℕ) → List (Finset ℕ)
  | 0, _ => []
  | _, [] => []
  | fuel + 1, g :: gs =>
    let p := absorb g gs
    p.1 :: merge_groups_fuel fuel p.2

/-- Embeds the merge pass of `_group_overlaps`. -/
def merge_groups (groups : List (Finset ℕ)) : List (Finset ℕ) :=
  merge_groups_fuel groups.length groups

/-- Embeds `TextractPostProcessingBBoxes._group_overlaps` with an explicit
iteration order for the overlapping set. -/
def group_overlaps_with_order (overlaps : List (ℕ × ℕ)) (order : List ℕ) :
    List (Finset ℕ) :=
  merge_groups (build_groups overlaps order)

/-- Embeds `TextractPostProcessingBBoxes._group_overlaps`, with the
overlapping set (all indices below `n`, the number of regions) iterated in
ascending index order. -/
def group_overlaps (n : ℕ) (overlapping_bboxes_set : Finset ℕ)
    (overlaps : List (ℕ × ℕ)) : List (Finset ℕ) :=
  group_overlaps_with_order overlaps (ascending_members n overlapping_bboxes_set)

/-- Embeds `TextractPostProcessingBBoxes._is_direct_neightbour` (source
spelling): whether the pair appears in the overlap list in either order. -/
def is_direct_neightbour (max_score_index member_index : ℕ)
    (overlaps : List (ℕ × ℕ)) : Bool :=
  overlaps.any fun p =>
    (decide (p.1 = max_score_index) && decide (p.2 = member_index))
    || (decide (p.1 = member_index) && decide (p.2 = max_score_index))

/-- Embeds Python `max(group, key=conf)` over the group iterated in the
given list order: the first element attaining the maximal key (`max` keeps
the incumbent unless a strictly greater key appears). -/
def py_max (conf : ℕ → ℚ) : List ℕ → ℕ
  | [] => 0
  | x :: xs => xs.foldl (fun best m => if conf best < conf m then m else best) x

/-- Fuelled form of the `while group:` loop of
`TextractPostProcessingBBoxes._process_group`: pick the member with the
highest score (first maximal in ascending order, modelling `max` over the
set), remove its direct neighbours, keep the rest for the next round.
Each round strictly shrinks the group, so `card` fuel always suffices. -/
def process_group_fuel (n : ℕ) (conf : ℕ → ℚ) (overlaps : List (ℕ × ℕ)) :
    ℕ → Finset ℕ → Finset ℕ
  | 0, _ => ∅
  | fuel + 1, group =>
    if group = ∅ then ∅
    else
      let max_score := py_max conf (ascending_members n group)
      let removed_now := group.filter fun m =>
        m ≠ max_score && is_direct_neightbour max_score m overlaps
      let to_further_process := group.filter fun m =>
        m ≠ max_score && !is_direct_neightbour max_score m overlaps
      removed_now ∪ process_group_fuel n conf overlaps fuel to_further_process

/-- Embeds `TextractPostProcessingBBoxes._process_group`. -/
def process_group (n : ℕ) (conf : ℕ → ℚ) (overlaps : List (ℕ × ℕ))
    (group : Finset ℕ) : Finset ℕ :=
  process_group_fuel n conf overlaps group.card group

/-- Confidence of the region at an index, as used by the `key=lambda`
of `_process_group`. -/
def conf_of (layouts : List Layout) (index : ℕ) : ℚ :=
  (layouts.getD index default).confidence

/-- Embeds `TextractPostProcessingBBoxes._get_removing_indexes`: union of
the per-group removals. -/
def get_removing_indexes (layouts : List Layout) (groups : List (Finset ℕ))
    (overlaps : List (ℕ × ℕ)) : Finset ℕ :=
  groups.foldl
    (fun acc g => acc ∪ process_group layouts.length (conf_of layouts) overlaps g) ∅

/-- The groups computed by the resolver pipeline for a document (the
`groups` local of `get_list_of_skipping_ids`). -/
def document_groups (result : Document) : List (Finset ℕ) :=
  group_overlaps result.layouts.length
    (convert_overlaps_to_set (find_overlaps result.layouts))
    (find_overlaps result.layouts)

/-- The skip-set of `get_list_of_skipping_ids` at the region-index level
(the set `removing` of the source). -/
def removing_indexes (result : Document) : Finset ℕ :=
  get_removing_indexes result.layouts (document_groups result)
    (find_overlaps result.layouts)

/-- Embeds `TextractPostProcessingBBoxes.get_list_of_skipping_ids`:
the ids of the regions at the removed indices (the final `for index in
removing` iterates a set, modelled in ascending order). -/
def get_list_of_skipping_ids (result : Document) : List String :=
  (ascending_members result.layouts.length (removing_indexes result)).map
    fun index => (result.layouts.getD index default).id

/-- The regions surviving the skip computation, in their original order
(the regions whose index is not in the skip-set). -/
def survivors (result : Document) : List Layout :=
  (result.layouts.enum.filter fun p => p.1 ∉ removing_indexes result).map Prod.snd

/-- Embeds Python `round` applied to a float: round half to even. -/
def py_round (q : ℚ) : ℤ :=
  let f := q.num.ediv q.den
  let r := qsub q (mkRat f 1)
  if r < mkRat 1 2 then f
  else if mkRat 1 2 < r then f + 1
  else if f % 2 = 0 then f else f + 1

/-- Embeds `pdfixsdk.PdfDevRect`: an integer device-pixel rectangle
(top-left origin, y-down). -/
structure PdfDevRect where
  left : ℤ
  top : ℤ
  right : ℤ
  bottom : ℤ
deriving DecidableEq

/-- Embeds `pdfixsdk.PdfRect`: a target page-space rectangle (bottom-left
origin, y-up).  The source serializes the four edges as decimal strings;
the model keeps the exact numbers. -/
structure PdfRect where
  left : ℚ
  bottom : ℚ
  right : ℚ
  top : ℚ
deriving DecidableEq

instance : Inhabited PdfRect := ⟨⟨0, 0, 0, 0⟩⟩

/-- Embeds the slice of `pdfixsdk.PdfPageView` the builder consumes:
`GetDeviceWidth`, `GetDeviceHeight` and the external device-to-page
coordinate transform `RectToPage` (delegated to the SDK, hence an opaque
function field of the model). -/
structure PdfPageView where
  deviceWidth : ℤ
  deviceHeight : ℤ
  rectToPage : PdfDevRect → PdfRect

/-- Embeds the device rectangle computed for a region in
`_create_json_for_elements`: scale the normalized bbox by the device
dimensions and pad outward by the constant `offset = 2`, truncating with
`int()`. -/
def layout_dev_rect (page_w page_h : ℤ) (b : BBox) : PdfDevRect :=
  { left := py_int (qsub (qmul b.x (page_w : ℚ)) 2)
    top := py_int (qsub (qmul b.y (page_h : ℚ)) 2)
    right := py_int (qadd (qmul (qadd b.x b.width) (page_w : ℚ)) 2)
    bottom := py_int (qadd (qmul (qadd b.y b.height) (page_h : ℚ)) 2) }

/-- Embeds the unpadded device rectangle computed for list items
(`_create_list_items`) and table cells (`_create_table_cells`). -/
def dev_rect_no_offset (page_w page_h : ℤ) (b : BBox) : PdfDevRect :=
  { left := py_int (qmul b.x (page_w : ℚ))
    top := py_int (qmul b.y (page_h : ℚ))
    right := py_int (qmul (qadd b.x b.width) (page_w : ℚ))
    bottom := py_int (qmul (qadd b.y b.height) (page_h : ℚ)) }

/-- Embeds `TemplateJsonCreator._is_footer_or_header`: `"footer"` when the
top edge of the page-space bbox is below half the page height (the page
view's device height), `"header"` otherwise. -/
def is_footer_or_header (page_view : PdfPageView) (bbox : PdfRect) : String :=
  let page_height := page_view.deviceHeight
  let half_height := Rat.divInt page_height 2
  if bbox.top < half_height then "footer" else "header"

/-- A list-item element dict produced by
`TemplateJsonCreator._create_list_items`. -/
structure ItemElement where
  bbox : PdfRect
  comment : String
  type : String
deriving DecidableEq

/-- A table-cell element dict produced by
`TemplateJsonCreator._create_table_cells`.  The source stores the numeric
fields as decimal strings and stores `cell_header` as a Python bool for
detected cells but as the string `"false"` for synthesized cells; the
model keeps the underlying values. -/
structure CellElement where
  bbox : PdfRect
  cell_column : ℕ
  cell_column_span : ℕ
  cell_row : ℕ
  cell_row_span : ℕ
  cell_header : Bool
  cell_scope : Option String
  comment : String
  type : String
deriving DecidableEq

/-- An element dict produced by
`TemplateJsonCreator._create_json_for_elements`.  Keys that a branch does
not set are `none`.  The two `element_template` payload shapes (list items
and table cells) are kept in separate optional fields. -/
structure Element where
  bbox : PdfRect
  comment : String
  flag : Option String
  text_flag : Option String
  type : String
  heading : Option String
  tag : Option String
  row_num : Option ℕ
  col_num : Option ℕ
  template_items : Option (List ItemElement)
  template_cells : Option (List CellElement)
deriving DecidableEq

instance : Inhabited Element :=
  ⟨{ bbox := default, comment := "", flag := none, text_flag := none,
     type := "", heading := none, tag := none, row_num := none,
     col_num := none, template_items := none, template_cells := none }⟩

/-- Embeds `TemplateJsonCreator._create_list_items`: one text element per
`Layout` child of the list region; other children are skipped by the
`isinstance` check. -/
def create_list_items (list_layout : Layout) (page_view : PdfPageView) :
    List ItemElement :=
  list_layout.children.filterMap fun c =>
    match c with
    | Child.layout b conf =>
      let pct := py_round (qmul conf 100)
      some { bbox := page_view.rectToPage
               (dev_rect_no_offset page_view.deviceWidth page_view.deviceHeight b)
             comment := s!"List Item {pct}%"
             type := "pde_text" }
    | _ => none

/-- Embeds `TemplateJsonCreator._find_table_in_children`: the first
`Table`-typed child, scanning the whole child list. -/
def find_table_in_children (layout : Layout) : Option Table :=
  layout.children.findSome? fun c =>
    match c with
    | Child.table t => some t
    | _ => none

/-- The cell element built for a detected `TableCell` in
`_create_table_cells`. -/
def detected_cell (page_view : PdfPageView) (cell : TableCell) : CellElement :=
  let cell_row := cell.row_index
  let cell_column := cell.col_index
  let row_span := cell.row_span
  let col_span := cell.col_span
  let pct := py_round (qmul cell.confidence 100)
  { bbox := page_view.rectToPage
      (dev_rect_no_offset page_view.deviceWidth page_view.deviceHeight cell.bbox)
    cell_column := cell_column
    cell_column_span := cell.col_span
    cell_row := cell_row
    cell_row_span := cell.row_span
    cell_header := cell.is_column_header
    cell_scope := if cell.is_column_header then some "column" else none
    comment := s!"Cell Pos: [{cell_row}, {cell_column}] Span: [{row_span}, {col_span}] Confidence: {pct}%"
    type := "pde_cell" }

/-- The synthesized placeholder cell of `_create_table_cells`: degenerate
all-zero bbox, zero spans, header flag false. -/
def empty_cell (row_number column_number : ℕ) : CellElement :=
  { bbox := ⟨0, 0, 0, 0⟩
    cell_column := column_number
    cell_column_span := 0
    cell_row := row_number
    cell_row_span := 0
    cell_header := false
    cell_scope := none
    comment := s!"Cell Pos: [{row_number}, {column_number}] Span: [0, 0] Added by processing"
    type := "pde_cell" }

/-- Embeds `TemplateJsonCreator._create_table_cells`: one element per
detected cell (all children of a `Table` are `TableCell`s), then a
placeholder for every grid position `(row_number, column_number)` of the
`row_count × column_count` grid not claimed by any detected cell. -/
def create_table_cells (table_data : Table) (page_view : PdfPageView) :
    List CellElement :=
  let cells := table_data.children.map (detected_cell page_view)
  let missing := (List.range table_data.row_count).flatMap fun row_index =>
    (List.range table_data.column_count).flatMap fun col_index =>
      let row_number := row_index + 1
      let column_number := col_index + 1
      if table_data.children.any fun cell =>
           cell.row_index = row_number ∧ cell.col_index = column_number
      then []
      else [empty_cell row_number column_number]
  cells ++ missing

/-- The element dict built for one region by the loop body of
`TemplateJsonCreator._create_json_for_elements`; `none` when the region is
skipped (its id is in the skip list, or it is a table region without a
`Table`-typed child). -/
def element_for_region (skipping : List String) (page_view : PdfPageView)
    (layout : Layout) : Option Element :=
  if layout.id ∈ skipping then none
  else
    let rect := layout_dev_rect page_view.deviceWidth page_view.deviceHeight layout.bbox
    let bbox := page_view.rectToPage rect
    let label := ((layout.layout_type.replace "LAYOUT_" "").replace "_" " ").toLower
    let pct := py_round (qmul layout.confidence 100)
    let comment := s!"{label} {pct}%"
    let base : Element :=
      { bbox := bbox, comment := comment, flag := none, text_flag := none,
        type := "", heading := none, tag := none, row_num := none,
        col_num := none, template_items := none, template_cells := none }
    if layout.layout_type = "LAYOUT_FIGURE" then
      some { base with flag := some "no_join|no_split", type := "pde_image" }
    else if layout.layout_type = "LAYOUT_FOOTER" then
      some { base with flag := some "footer|artifact|no_join|no_split",
                       text_flag := some "no_new_line", type := "pde_text" }
    else if layout.layout_type = "LAYOUT_HEADER" then
      some { base with flag := some "header|artifact|no_join|no_split",
                       text_flag := some "no_new_line", type := "pde_text" }
    else if layout.layout_type = "LAYOUT_LIST" then
      some { base with template_items := some (create_list_items layout page_view),
                       flag := some "no_join|no_split", type := "pde_list" }
    else if layout.layout_type = "LAYOUT_PAGE_NUMBER" then
      let number_flag := is_footer_or_header page_view bbox
      some { base with flag := some (number_flag ++ "|artifact|no_join|no_split"),
                       text_flag := some "no_new_line", type := "pde_text" }
    else if layout.layout_type = "LAYOUT_SECTION_HEADER" then
      some { base with heading := some "h1", flag := some "no_join|no_split",
                       text_flag := some "no_new_line", type := "pde_text" }
    else if layout.layout_type = "LAYOUT_TABLE" then
      match find_table_in_children layout with
      | some table_data =>
        some { base with
                 template_cells := some (create_table_cells table_data page_view),
                 row_num := some table_data.row_count,
                 col_num := some table_data.column_count,
                 flag := some "no_join|no_split", type := "pde_table" }
      | none => none
    else if layout.layout_type = "LAYOUT_TEXT" then
      some { base with flag := some "no_join|no_split",
                       text_flag := some "no_new_line", type := "pde_text" }
    else if layout.layout_type = "LAYOUT_TITLE" then
      some { base with tag := some "Title", flag := some "no_join|no_split",
                       text_flag := some "no_new_line", type := "pde_text" }
    else
      some { base with flag := some "no_join|no_split",
                       text_flag := some "no_new_line", type := "pde_text" }

/-- The comparator behind
`sorted(elements, key=lambda x: (top, 1000.0 - left), reverse=True)`:
`a` may precede `b` when `a`'s key is lexicographically at least `b`'s
(descending primary key `top`, descending secondary key `1000 - left`). -/
def element_ord (a b : Element) : Prop :=
  b.bbox.top < a.bbox.top
  ∨ (b.bbox.top = a.bbox.top ∧ qsub 1000 b.bbox.left ≤ qsub 1000 a.bbox.left)

instance : DecidableRel element_ord := fun a b => by
  unfold element_ord; infer_instance

instance : IsTotal Element element_ord :=
  ⟨by
    intro a b
    unfold element_ord
    rcases lt_trichotomy a.bbox.top b.bbox.top with h | h | h
    · exact Or.inr (Or.inl h)
    · rcases le_total (qsub 1000 b.bbox.left) (qsub 1000 a.bbox.left) with h2 | h2
      · exact Or.inl (Or.inr ⟨h.symm, h2⟩)
      · exact Or.inr (Or.inr ⟨h, h2⟩)
    · exact Or.inl (Or.inl h)⟩

instance : IsTrans Element element_ord :=
  ⟨by
    intro a b c hab hbc
    unfold element_ord at *
    rcases hab with h1 | ⟨h1, h1'⟩ <;> rcases hbc with h2 | ⟨h2, h2'⟩
    · exact Or.inl (h2.trans h1)
    · exact Or.inl (h2 ▸ h1)
    · exact Or.inl (h1 ▸ h2)
    · exact Or.inr ⟨h2.trans h1, h2'.trans h1'⟩⟩

/-- Embeds `TemplateJsonCreator._create_json_for_elements`: compute the
skip list, build one element per surviving region, and stably sort by the
descending composite key (Python `sorted` is stable; the model uses the
stable `List.insertionSort`, observationally identical on the same
comparator). -/
def create_json_for_elements (result : Document) (page_view : PdfPageView) :
    List Element :=
  let skipping := get_list_of_skipping_ids result
  let elements := result.layouts.filterMap (element_for_region skipping page_view)
  List.insertionSort element_ord elements

/-- Chain A–B–C on one horizontal strip: A overlaps B, B overlaps C,
A and C are disjoint. Confidences A = 0.9, B = 0.5, C = 0.95. -/
def chainABC : Document :=
  { layouts :=
      [ { id := "A", layout_type := "LAYOUT_TEXT", confidence := mkRat 9 10,
          bbox := ⟨0, 0, mkRat 3 10, 1⟩, children := [] },
        { id := "B", layout_type := "LAYOUT_TEXT", confidence := mkRat 1 2,
          bbox := ⟨mkRat 1 5, 0, mkRat 1 2, 1⟩, children := [] },
        { id := "C", layout_type := "LAYOUT_TEXT", confidence := mkRat 19 20,
          bbox := ⟨mkRat 3 5, 0, mkRat 3 10, 1⟩, children := [] } ] }


/-- A horizontal strip of six regions forming the path
`0 – 5 – 2 – 3 – 4 – 1` in the overlap graph (consecutive regions touch,
all others are disjoint). -/
def pathSix : Document :=
  { layouts :=
      [ { id := "r0", layout_type := "LAYOUT_TEXT", confidence := mkRat 1 2,
          bbox := ⟨0, 0, mkRat 10 100, 1⟩, children := [] },
        { id := "r1", layout_type := "LAYOUT_TEXT", confidence := mkRat 1 2,
          bbox := ⟨mkRat 49 100, 0, mkRat 11 100, 1⟩, children := [] },
        { id := "r2", layout_type := "LAYOUT_TEXT", confidence := mkRat 1 2,
          bbox := ⟨mkRat 19 100, 0, mkRat 11 100, 1⟩, children := [] },
        { id := "r3", layout_type := "LAYOUT_TEXT", confidence := mkRat 1 2,
          bbox := ⟨mkRat 29 100, 0, mkRat 11 100, 1⟩, children := [] },
        { id := "r4", layout_type := "LAYOUT_TEXT", confidence := mkRat 1 2,
          bbox := ⟨mkRat 39 100, 0, mkRat 11 100, 1⟩, children := [] },
        { id := "r5", layout_type := "LAYOUT_TEXT", confidence := mkRat 1 2,
          bbox := ⟨mkRat 9 100, 0, mkRat 11 100, 1⟩, children := [] } ] }


/-- A concrete page view for witnesses: 100 × 200 device pixels, with the
usual y-flip into page space. -/
def simple_page_view : PdfPageView :=
  { deviceWidth := 100
    deviceHeight := 200
    rectToPage := fun r =>
      { left := mkRat r.left 1, bottom := mkRat (200 - r.bottom) 1,
        right := mkRat r.right 1, top := mkRat (200 - r.top) 1 } }

/-- The spec's table example: 2 × 2 grid, one detected cell at `(1, 1)`. -/
def tinyTable : Table :=
  { row_count := 2, column_count := 2,
    children := [{ row_index := 1, col_index := 1, row_span := 1, col_span := 1,
                   bbox := ⟨0, 0, mkRat 1 2, mkRat 1 2⟩,
                   is_column_header := true, confidence := mkRat 9 10 }] }


/-- Two non-overlapping text regions: P in the upper half (left 50),
Q in the lower half (left 0). -/
def twoRegions : Document :=
  { layouts :=
      [ { id := "Q", layout_type := "LAYOUT_TEXT", confidence := mkRat 1 2,
          bbox := ⟨0, mkRat 3 5, mkRat 1 5, mkRat 1 5⟩, children := [] },
        { id := "P", layout_type := "LAYOUT_TEXT", confidence := mkRat 1 2,
          bbox := ⟨mkRat 1 2, 0, mkRat 1 5, mkRat 1 5⟩, children := [] } ] }


/-- A degenerate region of zero width crossing the middle of `wideRegion`. -/
def zeroWidthRegion : Layout :=
  { id := "Z", layout_type := "LAYOUT_TEXT", confidence := mkRat 1 2,
    bbox := ⟨mkRat 1 2, 0, 0, 1⟩, children := [] }

/-- A full-width region. -/
def wideRegion : Layout :=
  { id := "W", layout_type := "LAYOUT_TEXT", confidence := mkRat 1 2,
    bbox := ⟨0, 0, 1, 1⟩, children := [] }

/-- Left half of the page; its right edge touches `touchRight`. -/
def touchLeft : Layout :=
  { id := "L", layout_type := "LAYOUT_TEXT", confidence := mkRat 1 2,
    bbox := ⟨0, 0, mkRat 1 2, 1⟩, children := [] }

/-- Right half of the page; shares only the edge `x = 1/2` with `touchLeft`,
so the rectangular intersection has zero area. -/
def touchRight : Layout :=
  { id := "R", layout_type := "LAYOUT_TEXT", confidence := mkRat 1 2,
    bbox := ⟨mkRat 1 2, 0, mkRat 1 2, 1⟩, children := [] }

/-- A table region whose `Table`-typed child comes after a non-table child. -/
def tableAfterLines : Layout :=
  { id := "T1", layout_type := "LAYOUT_TABLE", confidence := mkRat 1 2,
    bbox := ⟨0, 0, 1, 1⟩, children := [Child.other, Child.table tinyTable] }

/-- A table region without any `Table`-typed child. -/
def tableNoStructure : Layout :=
  { id := "T2", layout_type := "LAYOUT_TABLE", confidence := mkRat 1 2,
    bbox := ⟨0, 0, 1, 1⟩, children := [Child.other] }

/-- A page-number region near the bottom of the page. -/
def pageNumberRegion : Layout :=
  { id := "PN", layout_type := "LAYOUT_PAGE_NUMBER", confidence := mkRat 1 2,
    bbox := ⟨mkRat 2 5, mkRat 9 10, mkRat 1 5, mkRat 1 20⟩, children := [] }


theorem qadd_eq (a b : ℚ) : qadd a b = a + b := by
  have ha : ((a.den : ℚ)) ≠ 0 := by exact_mod_cast a.den_nz
  have hb : ((b.den : ℚ)) ≠ 0 := by exact_mod_cast b.den_nz
  unfold qadd
  rw [Rat.mkRat_eq_div]
  push_cast
  conv_rhs => rw [← Rat.num_div_den a, ← Rat.num_div_den b]
  field_simp

theorem qsub_eq (a b : ℚ) : qsub a b = a - b := by
  have ha : ((a.den : ℚ)) ≠ 0 := by exact_mod_cast a.den_nz
  have hb : ((b.den : ℚ)) ≠ 0 := by exact_mod_cast b.den_nz
  unfold qsub
  rw [Rat.mkRat_eq_div]
  push_cast
  conv_rhs => rw [← Rat.num_div_den a, ← Rat.num_div_den b]
  field_simp
  ring

theorem qmul_eq (a b : ℚ) : qmul a b = a * b := by
  have ha : ((a.den : ℚ)) ≠ 0 := by exact_mod_cast a.den_nz
  have hb : ((b.den : ℚ)) ≠ 0 := by exact_mod_cast b.den_nz
  unfold qmul
  rw [Rat.mkRat_eq_div]
  push_cast
  conv_rhs => rw [← Rat.num_div_den a, ← Rat.num_div_den b]
  field_simp

/-! ### Basic characterizations of the resolver's building blocks -/

theorem bboxes_overlaps_iff (r1 r2 : Layout) :
    bboxes_overlaps r1 r2 = true ↔
      r2.bbox.x ≤ qadd r1.bbox.x r1.bbox.width
      ∧ r1.bbox.x ≤ qadd r2.bbox.x r2.bbox.width
      ∧ r2.bbox.y ≤ qadd r1.bbox.y r1.bbox.height
      ∧ r1.bbox.y ≤ qadd r2.bbox.y r2.bbox.height := by
  simp only [bboxes_overlaps, convert_bbox, Bool.not_eq_eq_eq_not, Bool.not_true,
    Bool.or_eq_false_iff, decide_eq_false_iff_not, not_lt, gt_iff_lt]
  tauto

theorem bboxes_overlaps_symm (r1 r2 : Layout) :
    bboxes_overlaps r1 r2 = bboxes_overlaps r2 r1 := by
  rw [Bool.eq_iff_iff, bboxes_overlaps_iff, bboxes_overlaps_iff]
  tauto

theorem mem_find_overlaps {layouts : List Layout} {p : ℕ × ℕ} :
    p ∈ find_overlaps layouts ↔
      p.1 < p.2 ∧ p.2 < layouts.length ∧
      bboxes_overlaps (layouts.getD p.1 default) (layouts.getD p.2 default) = true := by
  obtain ⟨i, j⟩ := p
  simp only [find_overlaps, List.mem_flatMap, List.mem_filterMap, List.mem_filter,
    List.mem_range, decide_eq_true_eq]
  constructor
  · rintro ⟨a, ha, b, ⟨hb, hab⟩, h⟩
    by_cases hov : bboxes_overlaps (layouts.getD a default) (layouts.getD b default) = true
    · rw [if_pos hov] at h
      obtain ⟨rfl, rfl⟩ := Prod.mk.injEq .. ▸ Option.some.injEq .. ▸ h
      exact ⟨hab, hb, hov⟩
    · rw [if_neg hov] at h
      exact absurd h (by simp)
  · rintro ⟨hij, hj, hov⟩
    exact ⟨i, lt_trans hij hj, j, ⟨hj, hij⟩, by rw [if_pos hov]⟩

theorem mem_convert_overlaps_to_set {x : ℕ} {ov : List (ℕ × ℕ)} :
    x ∈ convert_overlaps_to_set ov ↔ ∃ p ∈ ov, x = p.1 ∨ x = p.2 := by
  have key : ∀ (l : List (ℕ × ℕ)) (s : Finset ℕ),
      x ∈ l.foldl (fun s p => insert p.2 (insert p.1 s)) s
        ↔ x ∈ s ∨ ∃ p ∈ l, x = p.1 ∨ x = p.2 := by
    intro l
    induction l with
    | nil => intro s; simp
    | cons p ps ih =>
      intro s
      rw [List.foldl_cons, ih]
      simp only [Finset.mem_insert, List.mem_cons]
      constructor
      · rintro ((h | h | h) | ⟨q, hq, hx⟩)
        · exact Or.inr ⟨p, Or.inl rfl, Or.inr h⟩
        · exact Or.inr ⟨p, Or.inl rfl, Or.inl h⟩
        · exact Or.inl h
        · exact Or.inr ⟨q, Or.inr hq, hx⟩
      · rintro (h | ⟨q, rfl | hq, hx⟩)
        · exact Or.inl (Or.inr (Or.inr h))
        · exact Or.inl (hx.elim (fun h => Or.inr (Or.inl h)) Or.inl)
        · exact Or.inr ⟨q, hq, hx⟩
  rw [convert_overlaps_to_set, key]
  simp

theorem is_direct_neightbour_symm (a b : ℕ) (ov : List (ℕ × ℕ)) :
    is_direct_neightbour a b ov = is_direct_neightbour b a ov := by
  rw [Bool.eq_iff_iff]
  simp only [is_direct_neightbour, List.any_eq_true, Bool.or_eq_true, Bool.and_eq_true,
    decide_eq_true_eq]
  constructor <;> rintro ⟨p, hp, h⟩ <;> exact ⟨p, hp, by tauto⟩

theorem is_direct_neightbour_of_mem {a b : ℕ} {ov : List (ℕ × ℕ)} (h : (a, b) ∈ ov) :
    is_direct_neightbour a b ov = true := by
  simp only [is_direct_neightbour, List.any_eq_true, Bool.or_eq_true, Bool.and_eq_true,
    decide_eq_true_eq]
  exact ⟨(a, b), h, Or.inl ⟨rfl, rfl⟩⟩

theorem is_direct_neightbour_elim {a b : ℕ} {ov : List (ℕ × ℕ)}
    (h : is_direct_neightbour a b ov = true) : (a, b) ∈ ov ∨ (b, a) ∈ ov := by
  simp only [is_direct_neightbour, List.any_eq_true, Bool.or_eq_true, Bool.and_eq_true,
    decide_eq_true_eq] at h
  obtain ⟨p, hp, ⟨h1, h2⟩ | ⟨h1, h2⟩⟩ := h
  · exact Or.inl (by rwa [show p = (a, b) from Prod.ext h1 h2] at hp)
  · exact Or.inr (by rwa [show p = (b, a) from Prod.ext h1 h2] at hp)

theorem mem_ascending_members {n x : ℕ} {s : Finset ℕ} :
    x ∈ ascending_members n s ↔ x < n ∧ x ∈ s := by
  simp [ascending_members, List.mem_filter]

theorem ascending_members_ne_nil {n : ℕ} {s : Finset ℕ} (h : s.Nonempty)
    (hb : ∀ x ∈ s, x < n) : ascending_members n s ≠ [] := by
  obtain ⟨x, hx⟩ := h
  intro hnil
  have : x ∈ ascending_members n s := mem_ascending_members.mpr ⟨hb x hx, hx⟩
  rw [hnil] at this
  exact absurd this (List.not_mem_nil x)

theorem foldl_max_mem (conf : ℕ → ℚ) :
    ∀ (l : List ℕ) (acc : ℕ),
      l.foldl (fun best m => if conf best < conf m then m else best) acc ∈ acc :: l := by
  intro l
  induction l with
  | nil => intro acc; simp
  | cons y ys ih =>
    intro acc
    rw [List.foldl_cons]
    have h := ih (if conf acc < conf y then y else acc)
    rcases List.mem_cons.mp h with h | h
    · rw [h]
      by_cases hc : conf acc < conf y <;> simp [hc]
    · simp [h]

theorem py_max_mem (conf : ℕ → ℚ) (l : List ℕ) (h : l ≠ []) : py_max conf l ∈ l := by
  match l, h with
  | x :: xs, _ =>
    have := foldl_max_mem conf xs x
    exact this

/-! ### The group-building pass -/

theorem mem_fill_touching {x b : ℕ} (ov : List (ℕ × ℕ)) :
    ∀ (g : Finset ℕ),
      x ∈ fill_touching b ov g
        ↔ x ∈ g ∨ ∃ p ∈ ov, (b = p.1 ∧ x = p.2) ∨ (b = p.2 ∧ x = p.1) := by
  induction ov with
  | nil => intro g; simp [fill_touching]
  | cons p ps ih =>
    intro g
    have step : fill_touching b (p :: ps) g
        = fill_touching b ps
            (if b = p.2 then insert p.1 (if b = p.1 then insert p.2 g else g)
             else (if b = p.1 then insert p.2 g else g)) := rfl
    have upd : x ∈ (if b = p.2 then insert p.1 (if b = p.1 then insert p.2 g else g)
             else (if b = p.1 then insert p.2 g else g))
        ↔ x ∈ g ∨ ((b = p.1 ∧ x = p.2) ∨ (b = p.2 ∧ x = p.1)) := by
      split_ifs with h1 h2 <;> (try simp only [Finset.mem_insert]) <;> tauto
    rw [step, ih, upd]
    constructor
    · rintro ((hx | hcp) | ⟨q, hq, hc⟩)
      · exact Or.inl hx
      · exact Or.inr ⟨p, List.mem_cons_self _ _, hcp⟩
      · exact Or.inr ⟨q, List.mem_cons_of_mem _ hq, hc⟩
    · rintro (hx | ⟨q, hq, hc⟩)
      · exact Or.inl (Or.inl hx)
      · rcases List.mem_cons.mp hq with rfl | hq2
        · exact Or.inl (Or.inr hc)
        · exact Or.inr ⟨q, hq2, hc⟩

theorem subset_fill_touching {b : ℕ} {ov : List (ℕ × ℕ)} {g : Finset ℕ} :
    g ⊆ fill_touching b ov g :=
  fun _ hx => (mem_fill_touching ov g).mpr (Or.inl hx)

theorem fill_touching_right {i j : ℕ} {ov : List (ℕ × ℕ)} (h : (i, j) ∈ ov)
    (g : Finset ℕ) : j ∈ fill_touching i ov g :=
  (mem_fill_touching ov g).mpr (Or.inr ⟨(i, j), h, Or.inl ⟨rfl, rfl⟩⟩)

theorem fill_touching_left {i j : ℕ} {ov : List (ℕ × ℕ)} (h : (i, j) ∈ ov)
    (g : Finset ℕ) : i ∈ fill_touching j ov g :=
  (mem_fill_touching ov g).mpr (Or.inr ⟨(i, j), h, Or.inr ⟨rfl, rfl⟩⟩)

theorem group_step_cons (ov : List (ℕ × ℕ)) (g : Finset ℕ) (gs : List (Finset ℕ))
    (b : ℕ) :
    group_step ov (g :: gs) b
      = if b ∈ g then fill_touching b ov g :: gs else g :: group_step ov gs b := rfl

theorem group_step_sup (ov : List (ℕ × ℕ)) (b : ℕ) :
    ∀ (groups : List (Finset ℕ)), ∀ g ∈ groups,
      ∃ g' ∈ group_step ov groups b, g ⊆ g' := by
  intro groups
  induction groups with
  | nil => simp
  | cons h t ih =>
    intro g hg
    rw [group_step_cons]
    by_cases hb : b ∈ h
    · rw [if_pos hb]
      rcases List.mem_cons.mp hg with rfl | hgt
      · exact ⟨fill_touching b ov g, List.mem_cons_self _ _, subset_fill_touching⟩
      · exact ⟨g, List.mem_cons_of_mem _ hgt, Finset.Subset.refl g⟩
    · rw [if_neg hb]
      rcases List.mem_cons.mp hg with rfl | hgt
      · exact ⟨g, List.mem_cons_self _ _, Finset.Subset.refl g⟩
      · obtain ⟨g', hg', hsub⟩ := ih g hgt
        exact ⟨g', List.mem_cons_of_mem _ hg', hsub⟩

theorem group_step_found {ov : List (ℕ × ℕ)} {b j : ℕ}
    (hj : (b, j) ∈ ov ∨ (j, b) ∈ ov) :
    ∀ (groups : List (Finset ℕ)), (∃ g ∈ groups, b ∈ g) →
      ∃ g' ∈ group_step ov groups b, b ∈ g' ∧ j ∈ g' := by
  intro groups
  induction groups with
  | nil => rintro ⟨g, hg, _⟩; exact absurd hg (List.not_mem_nil g)
  | cons h t ih =>
    rintro ⟨g, hg, hbg⟩
    rw [group_step_cons]
    by_cases hbh : b ∈ h
    · rw [if_pos hbh]
      refine ⟨fill_touching b ov h, List.mem_cons_self _ _, subset_fill_touching hbh, ?_⟩
      rcases hj with h1 | h1
      · exact fill_touching_right h1 h
      · exact fill_touching_left h1 h
    · rw [if_neg hbh]
      have hgt : g ∈ t := by
        rcases List.mem_cons.mp hg with rfl | hgt
        · exact absurd hbg hbh
        · exact hgt
      obtain ⟨g', hg', hb', hj'⟩ := ih ⟨g, hgt, hbg⟩
      exact ⟨g', List.mem_cons_of_mem _ hg', hb', hj'⟩

theorem group_step_adds {ov : List (ℕ × ℕ)} {b j : ℕ}
    (hj : (b, j) ∈ ov ∨ (j, b) ∈ ov) :
    ∀ (groups : List (Finset ℕ)), ∃ g' ∈ group_step ov groups b, j ∈ g' := by
  intro groups
  induction groups with
  | nil =>
    refine ⟨fill_touching b ov ∅, by simp [group_step], ?_⟩
    rcases hj with h1 | h1
    · exact fill_touching_right h1 ∅
    · exact fill_touching_left h1 ∅
  | cons h t ih =>
    rw [group_step_cons]
    by_cases hbh : b ∈ h
    · rw [if_pos hbh]
      refine ⟨fill_touching b ov h, List.mem_cons_self _ _, ?_⟩
      rcases hj with h1 | h1
      · exact fill_touching_right h1 h
      · exact fill_touching_left h1 h
    · rw [if_neg hbh]
      obtain ⟨g', hg', hj'⟩ := ih
      exact ⟨g', List.mem_cons_of_mem _ hg', hj'⟩

theorem group_step_members {ov : List (ℕ × ℕ)} {b : ℕ} :
    ∀ (groups : List (Finset ℕ)), ∀ g' ∈ group_step ov groups b, ∀ x ∈ g',
      (∃ g ∈ groups, x ∈ g) ∨ ∃ p ∈ ov, x = p.1 ∨ x = p.2 := by
  intro groups
  induction groups with
  | nil =>
    intro g' hg' x hx
    simp only [group_step, List.mem_singleton] at hg'
    subst hg'
    rcases (mem_fill_touching ov ∅).mp hx with h | ⟨p, hp, hcase⟩
    · exact absurd h (Finset.not_mem_empty x)
    · exact Or.inr ⟨p, hp, by tauto⟩
  | cons h t ih =>
    intro g' hg' x hx
    rw [group_step_cons] at hg'
    by_cases hbh : b ∈ h
    · rw [if_pos hbh] at hg'
      rcases List.mem_cons.mp hg' with rfl | hg't
      · rcases (mem_fill_touching ov h).mp hx with hxh | ⟨p, hp, hcase⟩
        · exact Or.inl ⟨h, List.mem_cons_self _ _, hxh⟩
        · exact Or.inr ⟨p, hp, by tauto⟩
      · exact Or.inl ⟨g', List.mem_cons_of_mem _ hg't, hx⟩
    · rw [if_neg hbh] at hg'
      rcases List.mem_cons.mp hg' with rfl | hg't
      · exact Or.inl ⟨g', List.mem_cons_self _ _, hx⟩
      · rcases ih g' hg't x hx with ⟨g, hg, hxg⟩ | hend
        · exact Or.inl ⟨g, List.mem_cons_of_mem _ hg, hxg⟩
        · exact Or.inr hend

theorem build_groups_together {ov : List (ℕ × ℕ)} {i j : ℕ}
    (hij : (i, j) ∈ ov ∨ (j, i) ∈ ov) (hne : i ≠ j) :
    ∀ (order : List ℕ) (groups : List (Finset ℕ)),
      ((i ∈ order ∧ j ∈ order)
        ∨ (j ∈ order ∧ ∃ g ∈ groups, j ∈ g)
        ∨ (i ∈ order ∧ ∃ g ∈ groups, i ∈ g)
        ∨ (∃ g ∈ groups, i ∈ g ∧ j ∈ g)) →
      ∃ g ∈ order.foldl (group_step ov) groups, i ∈ g ∧ j ∈ g := by
  intro order
  induction order with
  | nil =>
    intro groups h
    rcases h with ⟨hi, _⟩ | ⟨hj, _⟩ | ⟨hi, _⟩ | hg
    · exact absurd hi (List.not_mem_nil i)
    · exact absurd hj (List.not_mem_nil j)
    · exact absurd hi (List.not_mem_nil i)
    · exact hg
  | cons b rest ih =>
    intro groups h
    rw [List.foldl_cons]
    apply ih
    rcases h with ⟨hi, hj⟩ | ⟨hj, hg⟩ | ⟨hi, hg⟩ | hg
    · by_cases hbi : b = i
      · subst hbi
        have hjrest : j ∈ rest := by
          rcases List.mem_cons.mp hj with rfl | hr
          · exact absurd rfl hne
          · exact hr
        exact Or.inr (Or.inl ⟨hjrest, group_step_adds hij groups⟩)
      · by_cases hbj : b = j
        · subst hbj
          have hirest : i ∈ rest := by
            rcases List.mem_cons.mp hi with rfl | hr
            · exact absurd rfl hne
            · exact hr
          have hswap : (b, i) ∈ ov ∨ (i, b) ∈ ov := hij.symm
          exact Or.inr (Or.inr (Or.inl ⟨hirest, group_step_adds hswap groups⟩))
        · have hirest : i ∈ rest := by
            rcases List.mem_cons.mp hi with rfl | hr
            · exact absurd rfl hbi
            · exact hr
          have hjrest : j ∈ rest := by
            rcases List.mem_cons.mp hj with rfl | hr
            · exact absurd rfl hbj
            · exact hr
          exact Or.inl ⟨hirest, hjrest⟩
    · by_cases hbj : b = j
      · subst hbj
        have hswap : (b, i) ∈ ov ∨ (i, b) ∈ ov := hij.symm
        obtain ⟨g', hg', hbg', hig'⟩ := group_step_found hswap groups hg
        exact Or.inr (Or.inr (Or.inr ⟨g', hg', hig', hbg'⟩))
      · have hjrest : j ∈ rest := by
          rcases List.mem_cons.mp hj with rfl | hr
          · exact absurd rfl hbj
          · exact hr
        obtain ⟨g, hgmem, hjg⟩ := hg
        obtain ⟨g', hg', hsub⟩ := group_step_sup ov b groups g hgmem
        exact Or.inr (Or.inl ⟨hjrest, g', hg', hsub hjg⟩)
    · by_cases hbi : b = i
      · subst hbi
        obtain ⟨g', hg', hbg', hjg'⟩ := group_step_found hij groups hg
        exact Or.inr (Or.inr (Or.inr ⟨g', hg', hbg', hjg'⟩))
      · have hirest : i ∈ rest := by
          rcases List.mem_cons.mp hi with rfl | hr
          · exact absurd rfl hbi
          · exact hr
        obtain ⟨g, hgmem, hig⟩ := hg
        obtain ⟨g', hg', hsub⟩ := group_step_sup ov b groups g hgmem
        exact Or.inr (Or.inr (Or.inl ⟨hirest, g', hg', hsub hig⟩))
    · obtain ⟨g, hgmem, hig, hjg⟩ := hg
      obtain ⟨g', hg', hsub⟩ := group_step_sup ov b groups g hgmem
      exact Or.inr (Or.inr (Or.inr ⟨g', hg', hsub hig, hsub hjg⟩))

theorem build_groups_cover {ov : List (ℕ × ℕ)} {i j : ℕ} (hij : (i, j) ∈ ov)
    (hne : i ≠ j) (order : List ℕ) (hi : i ∈ order) (hj : j ∈ order) :
    ∃ g ∈ build_groups ov order, i ∈ g ∧ j ∈ g :=
  build_groups_together (Or.inl hij) hne order [] (Or.inl ⟨hi, hj⟩)

theorem build_groups_members (ov : List (ℕ × ℕ)) (order : List ℕ) :
    ∀ g ∈ build_groups ov order, ∀ x ∈ g, ∃ p ∈ ov, x = p.1 ∨ x = p.2 := by
  have key : ∀ (ord : List ℕ) (groups : List (Finset ℕ)),
      (∀ g ∈ groups, ∀ x ∈ g, ∃ p ∈ ov, x = p.1 ∨ x = p.2) →
      ∀ g ∈ ord.foldl (group_step ov) groups, ∀ x ∈ g,
        ∃ p ∈ ov, x = p.1 ∨ x = p.2 := by
    intro ord
    induction ord with
    | nil => intro groups h; exact h
    | cons b rest ih =>
      intro groups h
      rw [List.foldl_cons]
      apply ih
      intro g hg x hx
      rcases group_step_members groups g hg x hx with ⟨g0, hg0, hxg0⟩ | hend
      · exact h g0 hg0 x hxg0
      · exact hend
  exact key order [] (by intro g hg; exact absurd hg (List.not_mem_nil g))

/-! ### The merge pass -/

theorem absorb_fst_sup : ∀ (l : List (Finset ℕ)) (g : Finset ℕ), g ⊆ (absorb g l).1 := by
  intro l
  induction l with
  | nil => intro g; exact Finset.Subset.refl g
  | cons h t ih =>
    intro g
    rw [absorb]
    split_ifs with hint
    · exact Finset.Subset.trans Finset.subset_union_left (ih (g ∪ h))
    · exact ih g

theorem absorb_cover : ∀ (l : List (Finset ℕ)) (g h : Finset ℕ), h ∈ l →
    h ⊆ (absorb g l).1 ∨ h ∈ (absorb g l).2 := by
  intro l
  induction l with
  | nil => intro g h hh; exact absurd hh (List.not_mem_nil h)
  | cons h0 t ih =>
    intro g h hh
    rw [absorb]
    split_ifs with hint
    · rcases List.mem_cons.mp hh with rfl | hht
      · exact Or.inl (Finset.Subset.trans Finset.subset_union_right (absorb_fst_sup t (g ∪ h)))
      · exact ih (g ∪ h0) h hht
    · rcases List.mem_cons.mp hh with rfl | hht
      · exact Or.inr (List.mem_cons_self _ _)
      · rcases ih g h hht with hsub | hmem
        · exact Or.inl hsub
        · exact Or.inr (List.mem_cons_of_mem _ hmem)

theorem absorb_snd_length : ∀ (l : List (Finset ℕ)) (g : Finset ℕ),
    (absorb g l).2.length ≤ l.length := by
  intro l
  induction l with
  | nil => intro g; exact Nat.le_refl 0
  | cons h t ih =>
    intro g
    rw [absorb]
    split_ifs with hint
    · exact Nat.le_succ_of_le (ih (g ∪ h))
    · exact Nat.succ_le_succ (ih g)

theorem absorb_snd_mem : ∀ (l : List (Finset ℕ)) (g h : Finset ℕ),
    h ∈ (absorb g l).2 → h ∈ l := by
  intro l
  induction l with
  | nil => intro g h hh; exact absurd hh (List.not_mem_nil h)
  | cons h0 t ih =>
    intro g h hh
    rw [absorb] at hh
    split_ifs at hh with hint
    · exact List.mem_cons_of_mem _ (ih (g ∪ h0) h hh)
    · rcases List.mem_cons.mp hh with rfl | hht
      · exact List.mem_cons_self _ _
      · exact List.mem_cons_of_mem _ (ih g h hht)

theorem absorb_fst_members : ∀ (l : List (Finset ℕ)) (g : Finset ℕ) (x : ℕ),
    x ∈ (absorb g l).1 → x ∈ g ∨ ∃ h ∈ l, x ∈ h := by
  intro l
  induction l with
  | nil => intro g x hx; exact Or.inl hx
  | cons h0 t ih =>
    intro g x hx
    rw [absorb] at hx
    split_ifs at hx with hint
    · rcases ih (g ∪ h0) x hx with hg | ⟨h, hh, hxh⟩
      · rcases Finset.mem_union.mp hg with hg | hg
        · exact Or.inl hg
        · exact Or.inr ⟨h0, List.mem_cons_self _ _, hg⟩
      · exact Or.inr ⟨h, List.mem_cons_of_mem _ hh, hxh⟩
    · rcases ih g x hx with hg | ⟨h, hh, hxh⟩
      · exact Or.inl hg
      · exact Or.inr ⟨h, List.mem_cons_of_mem _ hh, hxh⟩

theorem merge_groups_fuel_cover : ∀ (fuel : ℕ) (l : List (Finset ℕ)),
    l.length ≤ fuel → ∀ g ∈ l, ∃ g' ∈ merge_groups_fuel fuel l, g ⊆ g' := by
  intro fuel
  induction fuel with
  | zero =>
    intro l hl g hg
    rw [List.length_eq_zero.mp (Nat.le_zero.mp hl)] at hg
    exact absurd hg (List.not_mem_nil g)
  | succ fuel ih =>
    intro l hl g hg
    match l, hg with
    | h :: t, hg =>
      rw [show merge_groups_fuel (fuel + 1) (h :: t)
            = (absorb h t).1 :: merge_groups_fuel fuel (absorb h t).2 from rfl]
      rcases List.mem_cons.mp hg with rfl | hgt
      · exact ⟨(absorb g t).1, List.mem_cons_self _ _, absorb_fst_sup t g⟩
      · rcases absorb_cover t h g hgt with hsub | hmem
        · exact ⟨(absorb h t).1, List.mem_cons_self _ _, hsub⟩
        · have hlen : (absorb h t).2.length ≤ fuel :=
            Nat.le_trans (absorb_snd_length t h) (Nat.succ_le_succ_iff.mp hl)
          obtain ⟨g', hg', hsub⟩ := ih (absorb h t).2 hlen g hmem
          exact ⟨g', List.mem_cons_of_mem _ hg', hsub⟩

theorem merge_groups_fuel_members : ∀ (fuel : ℕ) (l : List (Finset ℕ)),
    ∀ g' ∈ merge_groups_fuel fuel l, ∀ x ∈ g', ∃ g ∈ l, x ∈ g := by
  intro fuel
  induction fuel with
  | zero =>
    intro l g' hg'
    cases l with
    | nil => exact absurd hg' (List.not_mem_nil g')
    | cons h t => exact absurd hg' (List.not_mem_nil g')
  | succ fuel ih =>
    intro l g' hg' x hx
    match l, hg' with
    | [], hg' => exact absurd hg' (List.not_mem_nil g')
    | h :: t, hg' =>
      rw [show merge_groups_fuel (fuel + 1) (h :: t)
            = (absorb h t).1 :: merge_groups_fuel fuel (absorb h t).2 from rfl] at hg'
      rcases List.mem_cons.mp hg' with rfl | hg't
      · rcases absorb_fst_members t h x hx with hxh | ⟨g, hgt, hxg⟩
        · exact ⟨h, List.mem_cons_self _ _, hxh⟩
        · exact ⟨g, List.mem_cons_of_mem _ hgt, hxg⟩
      · obtain ⟨g, hgmem, hxg⟩ := ih (absorb h t).2 g' hg't x hx
        exact ⟨g, List.mem_cons_of_mem _ (absorb_snd_mem t h g hgmem), hxg⟩

theorem merge_groups_cover {l : List (Finset ℕ)} {g : Finset ℕ} (hg : g ∈ l) :
    ∃ g' ∈ merge_groups l, g ⊆ g' :=
  merge_groups_fuel_cover l.length l (Nat.le_refl _) g hg

theorem merge_groups_members {l : List (Finset ℕ)} {g' : Finset ℕ}
    (hg' : g' ∈ merge_groups l) {x : ℕ} (hx : x ∈ g') : ∃ g ∈ l, x ∈ g :=
  merge_groups_fuel_members l.length l g' hg' x hx

/-! ### The winner-take-all reduction -/

theorem process_group_fuel_succ (n : ℕ) (conf : ℕ → ℚ) (ov : List (ℕ × ℕ))
    (fuel : ℕ) (group : Finset ℕ) :
    process_group_fuel n conf ov (fuel + 1) group
      = if group = ∅ then ∅
        else
          (group.filter fun m =>
            m ≠ py_max conf (ascending_members n group)
            && is_direct_neightbour (py_max conf (ascending_members n group)) m ov)
          ∪ process_group_fuel n conf ov fuel
              (group.filter fun m =>
                m ≠ py_max conf (ascending_members n group)
                && !is_direct_neightbour (py_max conf (ascending_members n group)) m ov) := rfl

theorem process_group_fuel_subset (n : ℕ) (conf : ℕ → ℚ) (ov : List (ℕ × ℕ)) :
    ∀ (fuel : ℕ) (group : Finset ℕ),
      process_group_fuel n conf ov fuel group ⊆ group := by
  intro fuel
  induction fuel with
  | zero => intro group x hx; exact absurd hx (Finset.not_mem_empty x)
  | succ fuel ih =>
    intro group
    rw [process_group_fuel_succ]
    split_ifs with hg
    · intro x hx; exact absurd hx (Finset.not_mem_empty x)
    · apply Finset.union_subset (Finset.filter_subset _ _)
      exact Finset.Subset.trans (ih _) (Finset.filter_subset _ _)

theorem winner_mem {n : ℕ} {conf : ℕ → ℚ} {group : Finset ℕ} (hne : group ≠ ∅)
    (hb : ∀ x ∈ group, x < n) :
    py_max conf (ascending_members n group) ∈ group := by
  have hnil : ascending_members n group ≠ [] :=
    ascending_members_ne_nil (Finset.nonempty_iff_ne_empty.mpr hne) hb
  exact (mem_ascending_members.mp (py_max_mem conf _ hnil)).2

theorem further_card_le {n : ℕ} {conf : ℕ → ℚ} {ov : List (ℕ × ℕ)}
    {group : Finset ℕ} {fuel : ℕ} (hne : group ≠ ∅) (hb : ∀ x ∈ group, x < n)
    (hc : group.card ≤ fuel + 1) :
    (group.filter fun m =>
      m ≠ py_max conf (ascending_members n group)
      && !is_direct_neightbour (py_max conf (ascending_members n group)) m ov).card
      ≤ fuel := by
  set w := py_max conf (ascending_members n group) with hw
  have hsub : (group.filter fun m => m ≠ w && !is_direct_neightbour w m ov)
      ⊆ group.erase w := by
    intro x hx
    obtain ⟨hxg, hprop⟩ := Finset.mem_filter.mp hx
    simp only [Bool.and_eq_true, decide_eq_true_eq] at hprop
    exact Finset.mem_erase.mpr ⟨hprop.1, hxg⟩
  have h1 : (group.erase w).card = group.card - 1 :=
    Finset.card_erase_of_mem (winner_mem hne hb)
  have h2 := Finset.card_le_card hsub
  omega

theorem process_group_fuel_edge_cover {n : ℕ} {conf : ℕ → ℚ} {ov : List (ℕ × ℕ)} :
    ∀ (fuel : ℕ) (group : Finset ℕ), group.card ≤ fuel →
      (∀ x ∈ group, x < n) → ∀ i j, i ∈ group → j ∈ group → i ≠ j →
      is_direct_neightbour i j ov = true →
      i ∈ process_group_fuel n conf ov fuel group
        ∨ j ∈ process_group_fuel n conf ov fuel group := by
  intro fuel
  induction fuel with
  | zero =>
    intro group hc _ i j hi _ _ _
    rw [Finset.card_eq_zero.mp (Nat.le_zero.mp hc)] at hi
    exact absurd hi (Finset.not_mem_empty i)
  | succ fuel ih =>
    intro group hc hb i j hi hj hne hnb
    have hgne : group ≠ ∅ := by
      intro h; rw [h] at hi; exact absurd hi (Finset.not_mem_empty i)
    rw [process_group_fuel_succ, if_neg hgne]
    set w := py_max conf (ascending_members n group) with hw
    by_cases hiw : i = w
    · right
      apply Finset.mem_union_left
      apply Finset.mem_filter.mpr
      refine ⟨hj, ?_⟩
      simp only [Bool.and_eq_true, decide_eq_true_eq]
      exact ⟨fun h => hne (hiw.trans h.symm), by rw [← hiw]; exact hnb⟩
    · by_cases hjw : j = w
      · left
        apply Finset.mem_union_left
        apply Finset.mem_filter.mpr
        refine ⟨hi, ?_⟩
        simp only [Bool.and_eq_true, decide_eq_true_eq]
        refine ⟨hiw, ?_⟩
        rw [← hjw, is_direct_neightbour_symm]
        exact hnb
      · cases hnbi : is_direct_neightbour w i ov with
        | true =>
          left
          apply Finset.mem_union_left
          exact Finset.mem_filter.mpr ⟨hi, by
            simp only [Bool.and_eq_true, decide_eq_true_eq]
            exact ⟨hiw, hnbi⟩⟩
        | false =>
          cases hnbj : is_direct_neightbour w j ov with
          | true =>
            right
            apply Finset.mem_union_left
            exact Finset.mem_filter.mpr ⟨hj, by
              simp only [Bool.and_eq_true, decide_eq_true_eq]
              exact ⟨hjw, hnbj⟩⟩
          | false =>
            set rest := group.filter fun m =>
              m ≠ w && !is_direct_neightbour w m ov with hrest
            have hir : i ∈ rest := Finset.mem_filter.mpr ⟨hi, by
              simp only [Bool.and_eq_true, decide_eq_true_eq, Bool.not_eq_true']
              exact ⟨hiw, hnbi⟩⟩
            have hjr : j ∈ rest := Finset.mem_filter.mpr ⟨hj, by
              simp only [Bool.and_eq_true, decide_eq_true_eq, Bool.not_eq_true']
              exact ⟨hjw, hnbj⟩⟩
            have hbr : ∀ x ∈ rest, x < n := fun x hx =>
              hb x (Finset.filter_subset _ _ hx)
            have hcr : rest.card ≤ fuel := further_card_le hgne hb hc
            rcases ih rest hcr hbr i j hir hjr hne hnb with h | h
            · exact Or.inl (Finset.mem_union_right _ h)
            · exact Or.inr (Finset.mem_union_right _ h)

theorem process_group_fuel_retained {n : ℕ} {conf : ℕ → ℚ} {ov : List (ℕ × ℕ)} :
    ∀ (fuel : ℕ) (group : Finset ℕ), group.card ≤ fuel →
      (∀ x ∈ group, x < n) → ∀ i j, i ∈ group → j ∈ group →
      i ∉ process_group_fuel n conf ov fuel group →
      j ∉ process_group_fuel n conf ov fuel group → i ≠ j →
      is_direct_neightbour i j ov = false := by
  intro fuel
  induction fuel with
  | zero =>
    intro group hc _ i j hi _ _ _ _
    rw [Finset.card_eq_zero.mp (Nat.le_zero.mp hc)] at hi
    exact absurd hi (Finset.not_mem_empty i)
  | succ fuel ih =>
    intro group hc hb i j hi hj hipg hjpg hne
    have hgne : group ≠ ∅ := by
      intro h; rw [h] at hi; exact absurd hi (Finset.not_mem_empty i)
    rw [process_group_fuel_succ, if_neg hgne] at hipg hjpg
    set w := py_max conf (ascending_members n group) with hw
    by_cases hiw : i = w
    · have hjnr : j ∉ group.filter fun m => m ≠ w && is_direct_neightbour w m ov :=
        fun h => hjpg (Finset.mem_union_left _ h)
      cases hnbj : is_direct_neightbour w j ov with
      | true =>
        exact absurd (Finset.mem_filter.mpr ⟨hj, by
          simp only [Bool.and_eq_true, decide_eq_true_eq]
          exact ⟨fun h => hne (hiw.trans h.symm), hnbj⟩⟩) hjnr
      | false => rw [hiw]; exact hnbj
    · by_cases hjw : j = w
      · have hinr : i ∉ group.filter fun m => m ≠ w && is_direct_neightbour w m ov :=
          fun h => hipg (Finset.mem_union_left _ h)
        cases hnbi : is_direct_neightbour w i ov with
        | true =>
          exact absurd (Finset.mem_filter.mpr ⟨hi, by
            simp only [Bool.and_eq_true, decide_eq_true_eq]
            exact ⟨hiw, hnbi⟩⟩) hinr
        | false =>
          rw [hjw, is_direct_neightbour_symm]
          exact hnbi
      · cases hnbi : is_direct_neightbour w i ov with
        | true =>
          exact absurd (Finset.mem_union_left _ (Finset.mem_filter.mpr ⟨hi, by
            simp only [Bool.and_eq_true, decide_eq_true_eq]
            exact ⟨hiw, hnbi⟩⟩)) hipg
        | false =>
          cases hnbj : is_direct_neightbour w j ov with
          | true =>
            exact absurd (Finset.mem_union_left _ (Finset.mem_filter.mpr ⟨hj, by
              simp only [Bool.and_eq_true, decide_eq_true_eq]
              exact ⟨hjw, hnbj⟩⟩)) hjpg
          | false =>
            set rest := group.filter fun m =>
              m ≠ w && !is_direct_neightbour w m ov with hrest
            have hir : i ∈ rest := Finset.mem_filter.mpr ⟨hi, by
              simp only [Bool.and_eq_true, decide_eq_true_eq, Bool.not_eq_true']
              exact ⟨hiw, hnbi⟩⟩
            have hjr : j ∈ rest := Finset.mem_filter.mpr ⟨hj, by
              simp only [Bool.and_eq_true, decide_eq_true_eq, Bool.not_eq_true']
              exact ⟨hjw, hnbj⟩⟩
            have hbr : ∀ x ∈ rest, x < n := fun x hx =>
              hb x (Finset.filter_subset _ _ hx)
            have hcr : rest.card ≤ fuel := further_card_le hgne hb hc
            exact ih rest hcr hbr i j hir hjr
              (fun h => hipg (Finset.mem_union_right _ h))
              (fun h => hjpg (Finset.mem_union_right _ h)) hne

/-! ### Assembling the skip-set -/

theorem foldl_union_acc (pg : Finset ℕ → Finset ℕ) :
    ∀ (groups : List (Finset ℕ)) (acc : Finset ℕ),
      acc ⊆ groups.foldl (fun a g => a ∪ pg g) acc := by
  intro groups
  induction groups with
  | nil => intro acc; exact Finset.Subset.refl acc
  | cons h t ih =>
    intro acc
    rw [List.foldl_cons]
    exact Finset.Subset.trans Finset.subset_union_left (ih (acc ∪ pg h))

theorem foldl_union_le (pg : Finset ℕ → Finset ℕ) :
    ∀ (groups : List (Finset ℕ)) (acc : Finset ℕ) (g : Finset ℕ), g ∈ groups →
      pg g ⊆ groups.foldl (fun a g => a ∪ pg g) acc := by
  intro groups
  induction groups with
  | nil => intro acc g hg; exact absurd hg (List.not_mem_nil g)
  | cons h t ih =>
    intro acc g hg
    rw [List.foldl_cons]
    rcases List.mem_cons.mp hg with rfl | hgt
    · exact Finset.Subset.trans Finset.subset_union_right (foldl_union_acc pg t _)
    · exact ih (acc ∪ pg h) g hgt

theorem foldl_union_sub (pg : Finset ℕ → Finset ℕ) :
    ∀ (groups : List (Finset ℕ)) (acc : Finset ℕ) (x : ℕ),
      x ∈ groups.foldl (fun a g => a ∪ pg g) acc →
      x ∈ acc ∨ ∃ g ∈ groups, x ∈ pg g := by
  intro groups
  induction groups with
  | nil => intro acc x hx; exact Or.inl hx
  | cons h t ih =>
    intro acc x hx
    rw [List.foldl_cons] at hx
    rcases ih (acc ∪ pg h) x hx with hacc | ⟨g, hgt, hxg⟩
    · rcases Finset.mem_union.mp hacc with hacc | hpg
      · exact Or.inl hacc
      · exact Or.inr ⟨h, List.mem_cons_self _ _, hpg⟩
    · exact Or.inr ⟨g, List.mem_cons_of_mem _ hgt, hxg⟩

theorem removing_indexes_sup {result : Document} {g : Finset ℕ}
    (hg : g ∈ document_groups result) :
    process_group result.layouts.length (conf_of result.layouts)
        (find_overlaps result.layouts) g
      ⊆ removing_indexes result :=
  foldl_union_le _ (document_groups result) ∅ g hg

theorem removing_indexes_sub {result : Document} {x : ℕ}
    (hx : x ∈ removing_indexes result) :
    ∃ g ∈ document_groups result,
      x ∈ process_group result.layouts.length (conf_of result.layouts)
            (find_overlaps result.layouts) g := by
  rcases foldl_union_sub _ (document_groups result) ∅ x hx with h | h
  · exact absurd h (Finset.not_mem_empty x)
  · exact h

theorem document_groups_members {result : Document} {g : Finset ℕ} {x : ℕ}
    (hg : g ∈ document_groups result) (hx : x ∈ g) :
    ∃ p ∈ find_overlaps result.layouts, x = p.1 ∨ x = p.2 := by
  obtain ⟨g0, hg0, hxg0⟩ := merge_groups_members hg hx
  exact build_groups_members _ _ g0 hg0 x hxg0

theorem document_groups_bound {result : Document} {g : Finset ℕ} {x : ℕ}
    (hg : g ∈ document_groups result) (hx : x ∈ g) :
    x < result.layouts.length := by
  obtain ⟨p, hp, hx12⟩ := document_groups_members hg hx
  obtain ⟨h12, h2, _⟩ := mem_find_overlaps.mp hp
  rcases hx12 with rfl | rfl
  · exact Nat.lt_trans h12 h2
  · exact h2

theorem removing_indexes_endpoint {result : Document} {x : ℕ}
    (hx : x ∈ removing_indexes result) :
    ∃ p ∈ find_overlaps result.layouts, x = p.1 ∨ x = p.2 := by
  obtain ⟨g, hg, hxpg⟩ := removing_indexes_sub hx
  exact document_groups_members hg (process_group_fuel_subset _ _ _ _ g hxpg)

theorem overlap_edge_cover (result : Document) :
    ∀ p ∈ find_overlaps result.layouts,
      p.1 ∈ removing_indexes result ∨ p.2 ∈ removing_indexes result := by
  rintro ⟨i, j⟩ hp
  obtain ⟨hij, hjlen, _⟩ := mem_find_overlaps.mp hp
  have hne : i ≠ j := Nat.ne_of_lt hij
  have hiset : i ∈ convert_overlaps_to_set (find_overlaps result.layouts) :=
    mem_convert_overlaps_to_set.mpr ⟨(i, j), hp, Or.inl rfl⟩
  have hjset : j ∈ convert_overlaps_to_set (find_overlaps result.layouts) :=
    mem_convert_overlaps_to_set.mpr ⟨(i, j), hp, Or.inr rfl⟩
  have hio : i ∈ ascending_members result.layouts.length
      (convert_overlaps_to_set (find_overlaps result.layouts)) :=
    mem_ascending_members.mpr ⟨Nat.lt_trans hij hjlen, hiset⟩
  have hjo : j ∈ ascending_members result.layouts.length
      (convert_overlaps_to_set (find_overlaps result.layouts)) :=
    mem_ascending_members.mpr ⟨hjlen, hjset⟩
  obtain ⟨g, hg, hig, hjg⟩ := build_groups_cover hp hne _ hio hjo
  obtain ⟨G, hG, hsub⟩ := merge_groups_cover hg
  have hGdoc : G ∈ document_groups result := hG
  have hbound : ∀ x ∈ G, x < result.layouts.length :=
    fun x hx => document_groups_bound hGdoc hx
  have hkey := @process_group_fuel_edge_cover result.layouts.length
    (conf_of result.layouts) (find_overlaps result.layouts)
    G.card G (Nat.le_refl _) hbound i j (hsub hig) (hsub hjg) hne
    (is_direct_neightbour_of_mem hp)
  rcases hkey with h | h
  · exact Or.inl (removing_indexes_sup hGdoc h)
  · exact Or.inr (removing_indexes_sup hGdoc h)

/-! ### Idempotence machinery -/

theorem ascending_members_empty (n : ℕ) : ascending_members n (∅ : Finset ℕ) = [] := by
  simp [ascending_members]

theorem skipping_of_no_overlaps (result : Document)
    (h : find_overlaps result.layouts = []) :
    get_list_of_skipping_ids result = [] ∧ removing_indexes result = ∅ := by
  have hset : convert_overlaps_to_set (find_overlaps result.layouts) = ∅ := by
    rw [h]; rfl
  have hgroups : document_groups result = [] := by
    unfold document_groups group_overlaps group_overlaps_with_order
    rw [hset, ascending_members_empty]
    rfl
  have hrem : removing_indexes result = ∅ := by
    unfold removing_indexes
    rw [hgroups]
    rfl
  refine ⟨?_, hrem⟩
  unfold get_list_of_skipping_ids
  rw [hrem, ascending_members_empty]
  rfl

theorem enum_pairwise (layouts : List Layout) :
    layouts.enum.Pairwise (fun a b => a.1 < b.1) := by
  rw [List.pairwise_iff_getElem]
  intro i j hi hj hij
  rw [List.getElem_enum, List.getElem_enum]
  exact hij

theorem mem_enum_spec {layouts : List Layout} {x : ℕ × Layout}
    (hx : x ∈ layouts.enum) :
    x.1 < layouts.length ∧ x.2 = layouts.getD x.1 default := by
  obtain ⟨m, hm, heq⟩ := List.mem_iff_getElem.mp hx
  have hm' : m < layouts.length := by simpa using hm
  rw [List.getElem_enum] at heq
  subst heq
  exact ⟨hm', (List.getD_eq_getElem layouts default hm').symm⟩

theorem survivors_no_overlaps (result : Document) :
    find_overlaps (survivors result) = [] := by
  apply List.eq_nil_iff_forall_not_mem.mpr
  rintro ⟨a, b⟩ hp
  obtain ⟨hab, hblen, hov⟩ := mem_find_overlaps.mp hp
  set l' := result.layouts.enum.filter
    (fun p => p.1 ∉ removing_indexes result) with hl'
  have hsurv : survivors result = l'.map Prod.snd := by
    rw [survivors, hl']
  have hlen : (survivors result).length = l'.length := by
    rw [hsurv, List.length_map]
  have halen : a < l'.length := by
    rw [← hlen]; exact Nat.lt_trans hab hblen
  have hblen' : b < l'.length := by rw [← hlen]; exact hblen
  have hgetd : ∀ (k : ℕ) (hk : k < l'.length),
      (survivors result).getD k default = l'[k].2 := by
    intro k hk
    rw [hsurv, List.getD_eq_getElem _ _ (by rw [List.length_map]; exact hk),
      List.getElem_map]
  have hpair : l'.Pairwise (fun x y => x.1 < y.1) :=
    List.Pairwise.sublist (List.filter_sublist _) (enum_pairwise result.layouts)
  have hij : l'[a].1 < l'[b].1 :=
    List.pairwise_iff_getElem.mp hpair a b halen hblen' hab
  have hmema : l'[a] ∈ l' := List.getElem_mem halen
  have hmemb : l'[b] ∈ l' := List.getElem_mem hblen'
  have hmema2 : l'[a] ∈ result.layouts.enum.filter
    (fun p => p.1 ∉ removing_indexes result) := hmema
  have hmemb2 : l'[b] ∈ result.layouts.enum.filter
    (fun p => p.1 ∉ removing_indexes result) := hmemb
  obtain ⟨hamem, hapred⟩ := List.mem_filter.mp hmema2
  obtain ⟨hbmem, hbpred⟩ := List.mem_filter.mp hmemb2
  obtain ⟨han, haval⟩ := mem_enum_spec hamem
  obtain ⟨hbn, hbval⟩ := mem_enum_spec hbmem
  have hanr : l'[a].1 ∉ removing_indexes result := by
    simpa using hapred
  have hbnr : l'[b].1 ∉ removing_indexes result := by
    simpa using hbpred
  have hovl : bboxes_overlaps
      (result.layouts.getD l'[a].1 default)
      (result.layouts.getD l'[b].1 default) = true := by
    rw [← haval, ← hbval]
    rw [hgetd a halen, hgetd b hblen'] at hov
    exact hov
  have hmem : (l'[a].1, l'[b].1) ∈ find_overlaps result.layouts :=
    mem_find_overlaps.mpr ⟨hij, hbn, hovl⟩
  rcases overlap_edge_cover result _ hmem with h | h
  · exact hanr h
  · exact hbnr h

/-! ### Table-grid machinery -/

theorem sum_range_ite (v : ℕ) : ∀ (n k : ℕ),
    (((List.range n).map fun i => if i = k then v else 0).sum) = if k < n then v else 0 := by
  intro n
  induction n with
  | zero => intro k; simp
  | succ n ih =>
    intro k
    rw [List.range_succ, List.map_append, List.sum_append, ih]
    simp only [List.map_cons, List.map_nil, List.sum_cons, List.sum_nil, Nat.add_zero]
    split_ifs <;> omega

theorem countP_le_one_of_nodup_positions {r c : ℕ} :
    ∀ (children : List TableCell),
      (children.map fun cell => (cell.row_index, cell.col_index)).Nodup →
      (children.countP fun cell => cell.row_index = r ∧ cell.col_index = c) ≤ 1 := by
  intro children
  induction children with
  | nil => intro _; simp [List.countP_nil]
  | cons ch rest ih =>
    intro hnd
    rw [List.map_cons, List.nodup_cons] at hnd
    obtain ⟨hnotin, hnd2⟩ := hnd
    rw [List.countP_cons]
    by_cases hch : ch.row_index = r ∧ ch.col_index = c
    · have hzero : (rest.countP fun cell => cell.row_index = r ∧ cell.col_index = c) = 0 := by
        apply List.countP_eq_zero.mpr
        intro cell hcell hpred
        simp only [decide_eq_true_eq] at hpred
        apply hnotin
        rw [show ((ch.row_index, ch.col_index) : ℕ × ℕ) = (r, c) from Prod.ext hch.1 hch.2]
        rw [show ((r, c) : ℕ × ℕ) = (cell.row_index, cell.col_index) from
          (Prod.ext hpred.1 hpred.2).symm]
        exact List.mem_map_of_mem _ hcell
      rw [hzero]
      simp [hch]
    · rw [if_neg (by simpa using hch)]
      simpa using ih hnd2

theorem countP_pos_of_mem {p : TableCell → Bool} {children : List TableCell}
    {cell : TableCell} (hmem : cell ∈ children) (hp : p cell = true) :
    1 ≤ children.countP p :=
  List.countP_pos_iff.mpr ⟨cell, hmem, hp⟩

/-! ### Table search machinery -/

theorem findSome_table_split : ∀ (pre : List Child) (post : List Child) (t : Table),
    (∀ ch ∈ pre, ∀ u : Table, ch ≠ Child.table u) →
    ((pre ++ Child.table t :: post).findSome? fun c =>
      match c with
      | Child.table u => some u
      | _ => none) = some t := by
  intro pre
  induction pre with
  | nil => intro post t _; rfl
  | cons ch rest ih =>
    intro post t hpre
    rw [List.cons_append, List.findSome?_cons]
    cases ch with
    | table u => exact absurd rfl (hpre (Child.table u) (List.mem_cons_self _ _) u)
    | layout b cf => exact ih post t fun c hc u => hpre c (List.mem_cons_of_mem _ hc) u
    | other => exact ih post t fun c hc u => hpre c (List.mem_cons_of_mem _ hc) u

theorem findSome_table_none : ∀ (l : List Child),
    (∀ ch ∈ l, ∀ u : Table, ch ≠ Child.table u) →
    (l.findSome? fun c =>
      match c with
      | Child.table u => some u
      | _ => none) = none := by
  intro l
  induction l with
  | nil => intro _; rfl
  | cons ch rest ih =>
    intro h
    rw [List.findSome?_cons]
    cases ch with
    | table u => exact absurd rfl (h (Child.table u) (List.mem_cons_self _ _) u)
    | layout b cf => exact ih fun c hc u => h c (List.mem_cons_of_mem _ hc) u
    | other => exact ih fun c hc u => h c (List.mem_cons_of_mem _ hc) u

theorem find_table_of_split (layout : Layout) (pre post : List Child) (t : Table)
    (hpre : ∀ ch ∈ pre, ∀ u : Table, ch ≠ Child.table u)
    (hch : layout.children = pre ++ Child.table t :: post) :
    find_table_in_children layout = some t := by
  unfold find_table_in_children
  rw [hch]
  exact findSome_table_split pre post t hpre

theorem find_table_none (layout : Layout)
    (h : ∀ ch ∈ layout.children, ∀ u : Table, ch ≠ Child.table u) :
    find_table_in_children layout = none := by
  unfold find_table_in_children
  exact findSome_table_none layout.children h

theorem create_table_cells_countP (t : Table) (pv : PdfPageView)
    (hnd : (t.children.map fun cell => (cell.row_index, cell.col_index)).Nodup)
    {r c : ℕ} (hr1 : 1 ≤ r) (hrR : r ≤ t.row_count) (hc1 : 1 ≤ c)
    (hcC : c ≤ t.column_count) :
    ((create_table_cells t pv).countP
      fun cell => cell.cell_row = r ∧ cell.cell_column = c) = 1 := by
  set p : CellElement → Bool :=
    fun cell => decide (cell.cell_row = r ∧ cell.cell_column = c) with hp
  set w : ℕ :=
    if t.children.any fun cell => cell.row_index = r ∧ cell.col_index = c
    then 0 else 1 with hw
  have hdet : ((t.children.map (detected_cell pv)).countP p)
      = t.children.countP fun cell => cell.row_index = r ∧ cell.col_index = c := by
    have hfun : (p ∘ detected_cell pv)
        = fun cell => decide (cell.row_index = r ∧ cell.col_index = c) := by
      funext cell
      simp [detected_cell, hp, Function.comp]
    rw [List.countP_map, hfun]
  have hinner : ∀ ri : ℕ,
      (((List.range t.column_count).flatMap fun ci =>
          if t.children.any fun cell =>
              cell.row_index = ri + 1 ∧ cell.col_index = ci + 1
          then ([] : List CellElement)
          else [empty_cell (ri + 1) (ci + 1)]).countP p)
        = if ri = r - 1 then w else 0 := by
    intro ri
    rw [List.countP_flatMap]
    have hmapeq : (List.map
        ((List.countP p) ∘ fun ci =>
          if t.children.any fun cell =>
              cell.row_index = ri + 1 ∧ cell.col_index = ci + 1
          then ([] : List CellElement)
          else [empty_cell (ri + 1) (ci + 1)])
        (List.range t.column_count))
        = List.map (fun ci => if ci = c - 1 then (if ri = r - 1 then w else 0) else 0)
            (List.range t.column_count) := by
      apply List.map_congr_left
      intro ci _
      simp only [Function.comp]
      by_cases hric : ri = r - 1 ∧ ci = c - 1
      · have hri : ri + 1 = r := by omega
        have hci : ci + 1 = c := by omega
        rw [hri, hci, if_pos hric.2, if_pos hric.1, hw]
        cases hany : t.children.any fun cell =>
            cell.row_index = r ∧ cell.col_index = c with
        | true => rw [if_pos rfl]; rfl
        | false =>
          rw [if_neg (by simp [hany])]
          have hpe : p (empty_cell r c) = true := by
            simp [hp, empty_cell]
          simp [hpe]
      · have hne : ¬ (ri + 1 = r ∧ ci + 1 = c) := by omega
        have hzero : (if ci = c - 1 then (if ri = r - 1 then w else 0) else 0) = 0 := by
          by_cases h1 : ci = c - 1
          · rw [if_pos h1]
            have h2 : ¬ ri = r - 1 := by omega
            rw [if_neg h2]
          · rw [if_neg h1]
        rw [hzero]
        cases hany : t.children.any fun cell =>
            cell.row_index = ri + 1 ∧ cell.col_index = ci + 1 with
        | true => rw [if_pos rfl]; rfl
        | false =>
          rw [if_neg (by simp [hany])]
          have hpe : p (empty_cell (ri + 1) (ci + 1)) = false := by
            simp only [hp, empty_cell, decide_eq_false_iff_not]
            exact hne
          simp [hpe]
    rw [hmapeq, sum_range_ite]
    have hcC2 : c - 1 < t.column_count := by omega
    rw [if_pos hcC2]
  have hmiss : (((List.range t.row_count).flatMap fun ri =>
      (List.range t.column_count).flatMap fun ci =>
        if t.children.any fun cell =>
            cell.row_index = ri + 1 ∧ cell.col_index = ci + 1
        then ([] : List CellElement)
        else [empty_cell (ri + 1) (ci + 1)]).countP p) = w := by
    rw [List.countP_flatMap]
    have hmapeq : (List.map
        ((List.countP p) ∘ fun ri =>
          (List.range t.column_count).flatMap fun ci =>
            if t.children.any fun cell =>
                cell.row_index = ri + 1 ∧ cell.col_index = ci + 1
            then ([] : List CellElement)
            else [empty_cell (ri + 1) (ci + 1)])
        (List.range t.row_count))
        = List.map (fun ri => if ri = r - 1 then w else 0)
            (List.range t.row_count) := by
      apply List.map_congr_left
      intro ri _
      exact hinner ri
    rw [hmapeq, sum_range_ite]
    have hrR2 : r - 1 < t.row_count := by omega
    rw [if_pos hrR2]
  show ((create_table_cells t pv).countP p) = 1
  rw [create_table_cells]
  rw [List.countP_append, hdet, hmiss, hw]
  cases hany : t.children.any fun cell =>
      cell.row_index = r ∧ cell.col_index = c with
  | true =>
    rw [if_pos rfl]
    obtain ⟨cell, hmem, hcell⟩ := List.any_eq_true.mp hany
    have hge : 1 ≤ t.children.countP
        fun cell => cell.row_index = r ∧ cell.col_index = c :=
      countP_pos_of_mem hmem hcell
    have hle := @countP_le_one_of_nodup_positions r c t.children hnd
    omega
  | false =>
    rw [if_neg (by simp [hany])]
    have hzero : (t.children.countP
        fun cell => cell.row_index = r ∧ cell.col_index = c) = 0 := by
      apply List.countP_eq_zero.mpr
      intro cell hcell hpred
      rw [List.any_eq_false] at hany
      exact hany cell hcell hpred
    omega

theorem create_table_cells_shape (t : Table) (pv : PdfPageView) :
    ∀ cell ∈ create_table_cells t pv,
      (∃ src ∈ t.children, cell = detected_cell pv src)
      ∨ ∃ rn cn : ℕ, cell = empty_cell rn cn ∧ 1 ≤ rn ∧ rn ≤ t.row_count
          ∧ 1 ≤ cn ∧ cn ≤ t.column_count := by
  intro cell hcell
  rw [create_table_cells, List.mem_append] at hcell
  rcases hcell with hdet | hmiss
  · obtain ⟨src, hsrc, heq⟩ := List.mem_map.mp hdet
    exact Or.inl ⟨src, hsrc, heq.symm⟩
  · rw [List.mem_flatMap] at hmiss
    obtain ⟨ri, hri, hmem⟩ := hmiss
    rw [List.mem_flatMap] at hmem
    obtain ⟨ci, hci, hmem2⟩ := hmem
    rw [List.mem_range] at hri hci
    dsimp only at hmem2
    split_ifs at hmem2 with hany
    · exact absurd hmem2 (List.not_mem_nil cell)
    · rw [List.mem_singleton] at hmem2
      exact Or.inr ⟨ri + 1, ci + 1, hmem2, by omega, by omega, by omega, by omega⟩

theorem create_json_sorted (result : Document) (pv : PdfPageView) :
    (create_json_for_elements result pv).Sorted element_ord := by
  unfold create_json_for_elements
  exact List.sorted_insertionSort element_ord _

/-! ### Claim theorems -/

/-- C1: for the chain A–B–C with bboxes overlapping as A–B and B–C only and
confidences A = 0.9, B = 0.5, C = 0.95, `get_list_of_skipping_ids` returns a
skip list containing exactly B: round 1 selects C and removes its direct
neighbour B, A survives to round 2 as sole member and is retained, so the
retained indices are {A, C} and the removed index set is {1}. -/
theorem chain_abc_skips_exactly_b :
    get_list_of_skipping_ids chainABC = ["B"]
    ∧ removing_indexes chainABC = {1} := by decide

/-- C2: for every document, any two distinct regions of the same computed
overlap group that both survive the skip computation do not overlap: within
a group, retained regions are pairwise non-adjacent in the overlap graph. -/
theorem retained_same_group_no_overlap (result : Document) (g : Finset ℕ)
    (i j : ℕ) (hg : g ∈ document_groups result) (hi : i ∈ g) (hj : j ∈ g)
    (hir : i ∉ removing_indexes result) (hjr : j ∉ removing_indexes result)
    (hne : i ≠ j) :
    bboxes_overlaps (result.layouts.getD i default)
      (result.layouts.getD j default) = false := by
  have hipg : i ∉ process_group result.layouts.length (conf_of result.layouts)
      (find_overlaps result.layouts) g :=
    fun h => hir (removing_indexes_sup hg h)
  have hjpg : j ∉ process_group result.layouts.length (conf_of result.layouts)
      (find_overlaps result.layouts) g :=
    fun h => hjr (removing_indexes_sup hg h)
  have hbound : ∀ x ∈ g, x < result.layouts.length :=
    fun x hx => document_groups_bound hg hx
  have hnb : is_direct_neightbour i j (find_overlaps result.layouts) = false :=
    process_group_fuel_retained g.card g (Nat.le_refl _) hbound i j hi hj
      hipg hjpg hne
  cases hov : bboxes_overlaps (result.layouts.getD i default)
      (result.layouts.getD j default) with
  | false => rfl
  | true =>
    exfalso
    rcases Nat.lt_or_ge i j with hij | hij
    · have hmem : (i, j) ∈ find_overlaps result.layouts :=
        mem_find_overlaps.mpr ⟨hij, hbound j hj, hov⟩
      exact Bool.noConfusion ((is_direct_neightbour_of_mem hmem).symm.trans hnb)
    · have hji : j < i := Nat.lt_of_le_of_ne hij (Ne.symm hne)
      have hov2 : bboxes_overlaps (result.layouts.getD j default)
          (result.layouts.getD i default) = true := by
        rw [bboxes_overlaps_symm]; exact hov
      have hmem : (j, i) ∈ find_overlaps result.layouts :=
        mem_find_overlaps.mpr ⟨hji, hbound i hi, hov2⟩
      have hnb2 : is_direct_neightbour j i (find_overlaps result.layouts) = false := by
        rw [is_direct_neightbour_symm]; exact hnb
      exact Bool.noConfusion ((is_direct_neightbour_of_mem hmem).symm.trans hnb2)

/-- Witness for C2 at the concrete chain A–B–C: indices 0 and 2 lie in the
single group {0, 1, 2}, both survive, and indeed do not overlap. -/
theorem retained_same_group_no_overlap_witness :
    bboxes_overlaps (chainABC.layouts.getD 0 default)
      (chainABC.layouts.getD 2 default) = false :=
  retained_same_group_no_overlap chainABC {0, 1, 2} 0 2 (by decide) (by decide)
    (by decide) (by decide) (by decide) (by decide)

/-- C3 counterexample: on the six-region path `0 – 5 – 2 – 3 – 4 – 1`
(a single connected component), `_group_overlaps` under the ascending
iteration order returns the two distinct groups {0, 2, 3, 4, 5} and
{1, 3, 4}: index 3 appears in both, so the groups are neither pairwise
disjoint nor the connected components. -/
theorem groups_not_disjoint_counterexample :
    (document_groups pathSix).length = 2
    ∧ (3 : ℕ) ∈ (document_groups pathSix).getD 0 ∅
    ∧ (3 : ℕ) ∈ (document_groups pathSix).getD 1 ∅
    ∧ (document_groups pathSix).getD 0 ∅ ≠ (document_groups pathSix).getD 1 ∅ := by
  decide

/-- C3 amended: the groups produced by `_group_overlaps` cover the overlap
graph — every two overlapping regions appear together in at least one
group, and every group member is an endpoint of some overlap edge (degree
at least 1) — but the groups are not guaranteed to be pairwise disjoint or
to equal the connected components. -/
theorem groups_cover_overlaps (result : Document) :
    (∀ p ∈ find_overlaps result.layouts,
      ∃ g ∈ document_groups result, p.1 ∈ g ∧ p.2 ∈ g)
    ∧ ∀ g ∈ document_groups result, ∀ x ∈ g,
        ∃ p ∈ find_overlaps result.layouts, x = p.1 ∨ x = p.2 := by
  constructor
  · rintro ⟨i, j⟩ hp
    obtain ⟨hij, hjlen, _⟩ := mem_find_overlaps.mp hp
    have hne : i ≠ j := Nat.ne_of_lt hij
    have hiset : i ∈ convert_overlaps_to_set (find_overlaps result.layouts) :=
      mem_convert_overlaps_to_set.mpr ⟨(i, j), hp, Or.inl rfl⟩
    have hjset : j ∈ convert_overlaps_to_set (find_overlaps result.layouts) :=
      mem_convert_overlaps_to_set.mpr ⟨(i, j), hp, Or.inr rfl⟩
    have hio : i ∈ ascending_members result.layouts.length
        (convert_overlaps_to_set (find_overlaps result.layouts)) :=
      mem_ascending_members.mpr ⟨Nat.lt_trans hij hjlen, hiset⟩
    have hjo : j ∈ ascending_members result.layouts.length
        (convert_overlaps_to_set (find_overlaps result.layouts)) :=
      mem_ascending_members.mpr ⟨hjlen, hjset⟩
    obtain ⟨g, hg, hig, hjg⟩ := build_groups_cover hp hne _ hio hjo
    obtain ⟨G, hG, hsub⟩ := merge_groups_cover hg
    exact ⟨G, hG, hsub hig, hsub hjg⟩
  · intro g hg x hx
    exact document_groups_members hg hx

/-- Witness for the amended C3: on the six-region path, the overlapping
pair (0, 5) ends up together in some group. -/
theorem groups_cover_overlaps_witness :
    ∃ g ∈ document_groups pathSix, (0 : ℕ) ∈ g ∧ (5 : ℕ) ∈ g :=
  (groups_cover_overlaps pathSix).1 (0, 5) (by decide)

/-- C4 counterexample: a zero-width region does overlap another region
under `bboxes_overlaps`, and two regions that only touch along an edge
(zero-area rectangular intersection) also count as overlapping —
contradicting both the "non-zero-area intersection" reading of the edge
relation and the "zero-area rectangles never overlap" sentence. -/
theorem zero_area_overlap_counterexample :
    zeroWidthRegion.bbox.width = 0
    ∧ bboxes_overlaps zeroWidthRegion wideRegion = true
    ∧ qadd touchLeft.bbox.x touchLeft.bbox.width = touchRight.bbox.x
    ∧ bboxes_overlaps touchLeft touchRight = true := by decide

/-- C4 amended: for regions with non-negative widths and heights, the
overlap test holds exactly when the two closed rectangles share a point;
touching rectangles and zero-area rectangles therefore do overlap. -/
theorem overlap_iff_closed_rectangles_meet (r1 r2 : Layout)
    (h1w : 0 ≤ r1.bbox.width) (h1h : 0 ≤ r1.bbox.height)
    (h2w : 0 ≤ r2.bbox.width) (h2h : 0 ≤ r2.bbox.height) :
    bboxes_overlaps r1 r2 = true ↔
      ∃ px py : ℚ,
        (r1.bbox.x ≤ px ∧ px ≤ r1.bbox.x + r1.bbox.width
          ∧ r2.bbox.x ≤ px ∧ px ≤ r2.bbox.x + r2.bbox.width)
        ∧ (r1.bbox.y ≤ py ∧ py ≤ r1.bbox.y + r1.bbox.height
          ∧ r2.bbox.y ≤ py ∧ py ≤ r2.bbox.y + r2.bbox.height) := by
  rw [bboxes_overlaps_iff]
  simp only [qadd_eq]
  constructor
  · rintro ⟨hx1, hx2, hy1, hy2⟩
    refine ⟨max r1.bbox.x r2.bbox.x, max r1.bbox.y r2.bbox.y,
      ⟨le_max_left _ _, ?_, le_max_right _ _, ?_⟩,
      ⟨le_max_left _ _, ?_, le_max_right _ _, ?_⟩⟩
    · exact max_le_iff.mpr ⟨by linarith, hx1⟩
    · exact max_le_iff.mpr ⟨hx2, by linarith⟩
    · exact max_le_iff.mpr ⟨by linarith, hy1⟩
    · exact max_le_iff.mpr ⟨hy2, by linarith⟩
  · rintro ⟨px, py, ⟨ha, hb, hc, hd⟩, ⟨he, hf, hg, hh⟩⟩
    exact ⟨le_trans hc hb, le_trans ha hd, le_trans hg hf, le_trans he hh⟩

/-- Witness for the amended C4 at the touching half-page regions: they
overlap, and their closed rectangles indeed share a point. -/
theorem overlap_iff_closed_rectangles_meet_witness :
    bboxes_overlaps touchLeft touchRight = true ↔
      ∃ px py : ℚ,
        (touchLeft.bbox.x ≤ px ∧ px ≤ touchLeft.bbox.x + touchLeft.bbox.width
          ∧ touchRight.bbox.x ≤ px ∧ px ≤ touchRight.bbox.x + touchRight.bbox.width)
        ∧ (touchLeft.bbox.y ≤ py ∧ py ≤ touchLeft.bbox.y + touchLeft.bbox.height
          ∧ touchRight.bbox.y ≤ py ∧ py ≤ touchRight.bbox.y + touchRight.bbox.height) :=
  overlap_iff_closed_rectangles_meet touchLeft touchRight (by decide) (by decide)
    (by decide) (by decide)

/-- C5: the skip computation is idempotent — running the resolver on the
regions that survived a first run produces an empty skip list (and an empty
removed-index set). -/
theorem skip_computation_idempotent (result : Document) :
    get_list_of_skipping_ids ⟨survivors result⟩ = []
    ∧ removing_indexes ⟨survivors result⟩ = ∅ :=
  skipping_of_no_overlaps ⟨survivors result⟩ (survivors_no_overlaps result)

/-- C6: a region whose bbox overlaps no other region's bbox (degree 0 in
the overlap graph) is never in the computed skip-set; consequently (when
region ids are unambiguous) its id never appears in the returned skip-id
list, so the skip mechanism never drops it from the page output. -/
theorem isolated_region_never_skipped (result : Document) (i : ℕ)
    (hi : i < result.layouts.length)
    (hdeg : ∀ j, j < result.layouts.length → j ≠ i →
      bboxes_overlaps (result.layouts.getD i default)
        (result.layouts.getD j default) = false) :
    i ∉ removing_indexes result
    ∧ ((∀ k, k < result.layouts.length →
          (result.layouts.getD k default).id = (result.layouts.getD i default).id →
          k = i) →
        (result.layouts.getD i default).id ∉ get_list_of_skipping_ids result) := by
  have hnot : i ∉ removing_indexes result := by
    intro hmem
    obtain ⟨p, hp, hx⟩ := removing_indexes_endpoint hmem
    obtain ⟨h12, h2, hov⟩ := mem_find_overlaps.mp hp
    rcases hx with rfl | rfl
    · exact Bool.noConfusion
        ((hdeg p.2 h2 (Nat.ne_of_gt h12)).symm.trans hov)
    · have hov2 : bboxes_overlaps (result.layouts.getD p.2 default)
          (result.layouts.getD p.1 default) = true := by
        rw [bboxes_overlaps_symm]; exact hov
      exact Bool.noConfusion
        ((hdeg p.1 (Nat.lt_trans h12 h2) (Nat.ne_of_lt h12)).symm.trans hov2)
  refine ⟨hnot, fun hinj hmem => ?_⟩
  unfold get_list_of_skipping_ids at hmem
  obtain ⟨k, hk, hid⟩ := List.mem_map.mp hmem
  obtain ⟨hklt, hkrem⟩ := mem_ascending_members.mp hk
  have hki : k = i := hinj k hklt hid
  exact hnot (hki ▸ hkrem)

/-- Witness for C6: in the two-region document with disjoint regions,
region 0 is isolated, is not in the skip-set, and its id is not in the
skip list. -/
theorem isolated_region_never_skipped_witness :
    (0 : ℕ) ∉ removing_indexes twoRegions
    ∧ (twoRegions.layouts.getD 0 default).id ∉ get_list_of_skipping_ids twoRegions := by
  have h := isolated_region_never_skipped twoRegions 0 (by decide) (by decide)
  exact ⟨h.1, h.2 (by decide)⟩

/-- C7: for a table whose detected cells occupy pairwise-distinct grid
positions, the emitted cell list represents the full
`row_count × column_count` grid: every 1-based position `(r, c)` inside the
grid is claimed by exactly one cell descriptor, and every descriptor is
either the image of a detected cell (same 1-based indices, spans, header
flag, mapped bbox — see `detected_cell`) or a synthesized placeholder with
all-zero bbox, zero spans and header flag false (see `empty_cell`). -/
theorem table_grid_complete (t : Table) (pv : PdfPageView)
    (hnd : (t.children.map fun cell => (cell.row_index, cell.col_index)).Nodup) :
    (∀ r c : ℕ, 1 ≤ r → r ≤ t.row_count → 1 ≤ c → c ≤ t.column_count →
      ((create_table_cells t pv).countP
        fun cell => cell.cell_row = r ∧ cell.cell_column = c) = 1)
    ∧ ∀ cell ∈ create_table_cells t pv,
        (∃ src ∈ t.children, cell = detected_cell pv src)
        ∨ ∃ rn cn : ℕ, cell = empty_cell rn cn ∧ 1 ≤ rn ∧ rn ≤ t.row_count
            ∧ 1 ≤ cn ∧ cn ≤ t.column_count :=
  ⟨fun _ _ hr1 hrR hc1 hcC => create_table_cells_countP t pv hnd hr1 hrR hc1 hcC,
   create_table_cells_shape t pv⟩

/-- Witness for C7 at the spec's 2 × 2 example table with one detected
cell at (1, 1): position (2, 2) is claimed by exactly one descriptor. -/
theorem table_grid_complete_witness :
    ((create_table_cells tinyTable simple_page_view).countP
      fun cell => cell.cell_row = 2 ∧ cell.cell_column = 2) = 1 :=
  (table_grid_complete tinyTable simple_page_view (by decide)).1 2 2
    (by decide) (by decide) (by decide) (by decide)

/-- C8: the table-structure lookup scans the whole child list (a `Table`
child is found behind any prefix of non-table children), and a table-typed
region without any `Table` child is silently dropped: the element builder
returns no element for it (and, being a total function, raises nothing). -/
theorem missing_table_structure_drops_region :
    (∀ (layout : Layout) (pre post : List Child) (t : Table),
      (∀ ch ∈ pre, ∀ u : Table, ch ≠ Child.table u) →
      layout.children = pre ++ Child.table t :: post →
      find_table_in_children layout = some t)
    ∧ ∀ (skipping : List String) (pv : PdfPageView) (layout : Layout),
        layout.layout_type = "LAYOUT_TABLE" →
        (∀ ch ∈ layout.children, ∀ u : Table, ch ≠ Child.table u) →
        element_for_region skipping pv layout = none := by
  constructor
  · exact fun layout pre post t hpre hch => find_table_of_split layout pre post t hpre hch
  · intro skipping pv layout htype hnone
    unfold element_for_region
    by_cases hskip : layout.id ∈ skipping
    · rw [if_pos hskip]
    · rw [if_neg hskip]
      simp only [htype, find_table_none layout hnone]
      rfl

/-- Witness for C8: the `Table` child of `tableAfterLines` is found behind
the non-table first child, and `tableNoStructure` yields no element. -/
theorem missing_table_structure_drops_region_witness :
    find_table_in_children tableAfterLines = some tinyTable
    ∧ element_for_region [] simple_page_view tableNoStructure = none := by
  constructor
  · refine missing_table_structure_drops_region.1 tableAfterLines
      [Child.other] [] tinyTable ?_ rfl
    intro ch hch u
    rw [List.mem_singleton] at hch
    subst hch
    intro h
    cases h
  · refine missing_table_structure_drops_region.2 [] simple_page_view
      tableNoStructure rfl ?_
    intro ch hch u
    have hch2 : ch ∈ [Child.other] := hch
    rw [List.mem_singleton] at hch2
    subst hch2
    intro h
    cases h

/-- C9: the emitted element list of a page is sorted by the composite
comparator with primary key descending mapped top-Y and secondary key
ascending mapped left-X: for any two positions `p < q` of the output,
either the later element has strictly smaller top, or the tops are equal
and the earlier element's left edge is not to the right of the later's. -/
theorem reading_order_sorted (result : Document) (pv : PdfPageView)
    (p q : ℕ) (hpq : p < q)
    (hq : q < (create_json_for_elements result pv).length) :
    ((create_json_for_elements result pv).getD q default).bbox.top
      < ((create_json_for_elements result pv).getD p default).bbox.top
    ∨ (((create_json_for_elements result pv).getD q default).bbox.top
        = ((create_json_for_elements result pv).getD p default).bbox.top
      ∧ ((create_json_for_elements result pv).getD p default).bbox.left
        ≤ ((create_json_for_elements result pv).getD q default).bbox.left) := by
  have hp : p < (create_json_for_elements result pv).length := Nat.lt_trans hpq hq
  have hsorted := create_json_sorted result pv
  have hord := List.pairwise_iff_getElem.mp hsorted p q hp hq hpq
  rw [List.getD_eq_getElem _ _ hp, List.getD_eq_getElem _ _ hq]
  unfold element_ord at hord
  rcases hord with h | ⟨heq, hle⟩
  · exact Or.inl h
  · refine Or.inr ⟨heq, ?_⟩
    rw [qsub_eq, qsub_eq] at hle
    exact (sub_le_sub_iff_left (1000 : ℚ)).mp hle

/-- Witness for C9: in the two-region page, the element emitted first has
the strictly larger mapped top-Y. -/
theorem reading_order_sorted_witness :
    ((create_json_for_elements twoRegions simple_page_view).getD 1 default).bbox.top
      < ((create_json_for_elements twoRegions simple_page_view).getD 0 default).bbox.top
    ∨ (((create_json_for_elements twoRegions simple_page_view).getD 1 default).bbox.top
        = ((create_json_for_elements twoRegions simple_page_view).getD 0 default).bbox.top
      ∧ ((create_json_for_elements twoRegions simple_page_view).getD 0 default).bbox.left
        ≤ ((create_json_for_elements twoRegions simple_page_view).getD 1 default).bbox.left) :=
  reading_order_sorted twoRegions simple_page_view 0 1 (by decide) (by decide)

/-- C10: `_is_footer_or_header` returns `"footer"` exactly when the mapped
bbox's top edge lies below half the page height (the page view's device
height) and `"header"` otherwise, for every page view (hence every page
height and zoom); and a non-skipped page-number region is emitted as a text
element whose flag combines that role with the artifact flags. -/
theorem page_number_footer_or_header (pv : PdfPageView) (bbox : PdfRect) :
    ((is_footer_or_header pv bbox = "footer")
      ↔ bbox.top < Rat.divInt pv.deviceHeight 2)
    ∧ ((is_footer_or_header pv bbox = "header")
      ↔ ¬ bbox.top < Rat.divInt pv.deviceHeight 2)
    ∧ ∀ (skipping : List String) (layout : Layout),
        layout.layout_type = "LAYOUT_PAGE_NUMBER" → layout.id ∉ skipping →
        ∃ e : Element, element_for_region skipping pv layout = some e
          ∧ e.type = "pde_text"
          ∧ e.flag = some (is_footer_or_header pv
              (pv.rectToPage
                (layout_dev_rect pv.deviceWidth pv.deviceHeight layout.bbox))
              ++ "|artifact|no_join|no_split") := by
  refine ⟨?_, ?_, ?_⟩
  · rw [show is_footer_or_header pv bbox
        = (if bbox.top < Rat.divInt pv.deviceHeight 2 then "footer" else "header")
      from rfl]
    split_ifs with h
    · exact iff_of_true rfl h
    · exact iff_of_false (by decide) h
  · rw [show is_footer_or_header pv bbox
        = (if bbox.top < Rat.divInt pv.deviceHeight 2 then "footer" else "header")
      from rfl]
    split_ifs with h
    · exact iff_of_false (by decide) (fun h2 => h2 h)
    · exact iff_of_true rfl h
  · intro skipping layout htype hskip
    unfold element_for_region
    rw [if_neg hskip]
    simp only [htype]
    exact ⟨_, rfl, rfl, rfl⟩

/-- Witness for C10: the concrete page-number region near the bottom of
the page is emitted as a text element carrying the footer/header role
flag computed by `is_footer_or_header`. -/
theorem page_number_footer_or_header_witness :
    ∃ e : Element,
      element_for_region [] simple_page_view pageNumberRegion = some e
      ∧ e.type = "pde_text"
      ∧ e.flag = some (is_footer_or_header simple_page_view
          (simple_page_view.rectToPage
            (layout_dev_rect simple_page_view.deviceWidth
              simple_page_view.deviceHeight pageNumberRegion.bbox))
          ++ "|artifact|no_join|no_split") :=
  (page_number_footer_or_header simple_page_view ⟨0, 0, 0, 0⟩).2.2 []
    pageNumberRegion rfl (by decide)
